import Mathlib

/-!
Verification of the version-resolution core of `asof.py`.

The repository resolves "newest version of package X as of time T" against
PyPI (`src/asof/pypi.py`, `get_pypi` / `is_compatible`) and conda
(`src/asof/conda.py`, `get_conda` with its inner `get_matches`).  This file
shallowly embeds those functions and proves the frozen claims about them.

Modelling boundary: the repository's own logic (grouping, sorting, the walk,
early termination, yanked / timestamp / compatibility checks, the MatchesOption
paths, the unguarded `Version(...)` call, the missing final `return` of conda's
`get_matches`) is translated statement-by-statement.  External collaborators
(the `packaging` library's version grammar, `parse_sdist_filename`,
`parse_wheel_filename`, `sys_tags`, the `re` module, `requests`, `subprocess`)
are modelled by executable Lean functions faithful to the behaviour the code
exercises: the version grammar is restricted to `v? release ('rc' num)?`
(epoch / post / dev / local segments and the other pre-release spellings are
not modelled), regex matching is greedy leftmost like Python's `re`, and
timestamps are integers on a single axis per resolver.
-/

/-- Model of `packaging.version.Version` restricted to the fragment this
program exercises: a dotted numeric release plus an optional `rc` pre-release
segment.  `release` keeps the digits exactly as written (so `1.0` and `1`
are distinct values that compare equal, as in PEP 440). -/
structure PVersion where
  release : List Nat
  rc : Option Nat
deriving DecidableEq, Repr

/-- PEP 440: a version is a pre-release iff it carries a pre-release segment
(model of `Version.is_prerelease`). -/
def PVersion.isPrerelease (v : PVersion) : Bool :=
  v.rc.isSome

/-- Natural-number comparison written with explicit tests so the proofs can
unfold it. -/
def natCmp (a b : Nat) : Ordering :=
  if a < b then .lt else if b < a then .gt else .eq

/-- Lexicographic comparison of digit lists. -/
def lexCmp : List Nat → List Nat → Ordering
  | [], [] => .eq
  | [], _ :: _ => .lt
  | _ :: _, [] => .gt
  | a :: as, b :: bs => (natCmp a b).then (lexCmp as bs)

/-- Drop trailing zeros, so that `1.0` and `1` get the same comparison key
(PEP 440 pads releases with zeros when comparing). -/
def stripZeros (l : List Nat) : List Nat :=
  (l.reverse.dropWhile (· = 0)).reverse

/-- Comparison key of the pre-release segment: a pre-release (`rc n`) sorts
strictly below the corresponding final release. -/
def rcKey : Option Nat → Nat × Nat
  | some n => (0, n)
  | none => (1, 0)

/-- Lexicographic comparison of pairs of naturals. -/
def pairCmp (a b : Nat × Nat) : Ordering :=
  (natCmp a.1 b.1).then (natCmp a.2 b.2)

/-- Model of PEP 440 version comparison on the modelled fragment: compare
zero-padded releases, then pre-release segments. -/
def PVersion.cmp (a b : PVersion) : Ordering :=
  (lexCmp (stripZeros a.release) (stripZeros b.release)).then
    (pairCmp (rcKey a.rc) (rcKey b.rc))

/-- `a ≤ b` on versions (the order `sorted(..., key=Version)` uses). -/
def PVersion.le (a b : PVersion) : Bool :=
  a.cmp b ≠ .gt

/-- `a < b` on versions. -/
def PVersion.lt (a b : PVersion) : Bool :=
  a.cmp b = .lt

theorem natCmp_eq_iff {a b : Nat} : natCmp a b = .eq ↔ a = b := by
  unfold natCmp
  split
  · constructor
    · intro h; cases h
    · intro h; omega
  · split
    · constructor
      · intro h; cases h
      · intro h; omega
    · constructor
      · intro _; omega
      · intro _; rfl

theorem natCmp_swap (a b : Nat) : natCmp a b = (natCmp b a).swap := by
  unfold natCmp
  rcases Nat.lt_trichotomy a b with h | h | h
  · rw [if_pos h, if_neg (by omega), if_pos h]; rfl
  · rw [if_neg (by omega), if_neg (by omega), if_neg (by omega), if_neg (by omega)]; rfl
  · rw [if_neg (by omega), if_pos h, if_pos h]; rfl

theorem natCmp_lt_iff {a b : Nat} : natCmp a b = .lt ↔ a < b := by
  unfold natCmp
  split
  · exact ⟨fun _ => by assumption, fun _ => rfl⟩
  · constructor
    · intro h
      split at h <;> cases h
    · intro h
      exact absurd h (by assumption)

theorem natCmp_lt_trans {a b c : Nat} (h1 : natCmp a b = .lt) (h2 : natCmp b c = .lt) :
    natCmp a c = .lt := by
  rw [natCmp_lt_iff] at *
  omega

theorem lexCmp_eq_iff : ∀ {a b : List Nat}, lexCmp a b = .eq ↔ a = b := by
  intro a
  induction a with
  | nil => intro b; cases b <;> simp [lexCmp]
  | cons x xs ih =>
    intro b
    cases b with
    | nil => simp [lexCmp]
    | cons y ys =>
      simp only [lexCmp]
      constructor
      · intro h
        rcases ho : natCmp x y with _ | _ | _ <;> rw [ho] at h <;>
          simp [Ordering.then] at h
        have hx := natCmp_eq_iff.mp ho
        have hy := ih.mp h
        simp [hx, hy]
      · intro h
        injection h with h1 h2
        rw [natCmp_eq_iff.mpr h1, ih.mpr h2]
        rfl

theorem lexCmp_swap : ∀ (a b : List Nat), lexCmp a b = (lexCmp b a).swap := by
  intro a
  induction a with
  | nil => intro b; cases b <;> rfl
  | cons x xs ih =>
    intro b
    cases b with
    | nil => rfl
    | cons y ys =>
      simp only [lexCmp]
      rw [natCmp_swap, ih ys]
      rcases natCmp y x with _ | _ | _ <;> rcases lexCmp ys xs with _ | _ | _ <;> rfl

theorem lexCmp_lt_trans : ∀ {a b c : List Nat}, lexCmp a b = .lt → lexCmp b c = .lt →
    lexCmp a c = .lt := by
  intro a
  induction a with
  | nil =>
    intro b c h1 h2
    cases b with
    | nil => exact h2
    | cons y ys =>
      cases c with
      | nil => simp [lexCmp] at h2
      | cons z zs => rfl
  | cons x xs ih =>
    intro b c h1 h2
    cases b with
    | nil => simp [lexCmp] at h1
    | cons y ys =>
      cases c with
      | nil => simp [lexCmp] at h2
      | cons z zs =>
        simp only [lexCmp] at *
        rcases h1' : natCmp x y with _ | _ | _ <;> rw [h1'] at h1 <;>
          rcases h2' : natCmp y z with _ | _ | _ <;> rw [h2'] at h2 <;>
          simp [Ordering.then] at h1 h2 ⊢
        · rw [natCmp_lt_trans h1' h2']
        · rw [natCmp_eq_iff.mp h2'] at h1'
          rw [h1']
        · rw [natCmp_eq_iff.mp h1'] at *
          rw [h2']
        · rw [natCmp_eq_iff.mp h1'] at *
          rw [h2']
          simp [Ordering.then]
          exact ih h1 h2

theorem pairCmp_eq_iff {a b : Nat × Nat} : pairCmp a b = .eq ↔ a = b := by
  unfold pairCmp
  rw [Ordering.then_eq_eq, natCmp_eq_iff, natCmp_eq_iff]
  constructor
  · intro h
    exact Prod.ext h.1 h.2
  · intro h
    rw [h]
    exact ⟨rfl, rfl⟩

theorem pairCmp_swap (a b : Nat × Nat) : pairCmp a b = (pairCmp b a).swap := by
  unfold pairCmp
  rw [natCmp_swap a.1 b.1, natCmp_swap a.2 b.2]
  rcases natCmp b.1 a.1 with _ | _ | _ <;> rcases natCmp b.2 a.2 with _ | _ | _ <;> rfl

theorem pairCmp_lt_trans {a b c : Nat × Nat} (h1 : pairCmp a b = .lt)
    (h2 : pairCmp b c = .lt) : pairCmp a c = .lt := by
  unfold pairCmp at *
  rcases e1 : natCmp a.1 b.1 with _ | _ | _ <;> rw [e1] at h1 <;>
    rcases e2 : natCmp b.1 c.1 with _ | _ | _ <;> rw [e2] at h2 <;>
    simp [Ordering.then] at h1 h2 ⊢
  · rw [natCmp_lt_trans e1 e2]
  · rw [natCmp_eq_iff.mp e2] at e1
    rw [e1]
  · rw [natCmp_eq_iff.mp e1] at *
    rw [e2]
  · rw [natCmp_eq_iff.mp e1] at *
    rw [e2]
    simp [Ordering.then]
    exact natCmp_lt_trans h1 h2

theorem PVersion.cmp_eq_lt_trans {a b c : PVersion} (h1 : a.cmp b = .lt)
    (h2 : b.cmp c = .lt) : a.cmp c = .lt := by
  unfold PVersion.cmp at *
  rw [Ordering.then_eq_lt] at h1 h2 ⊢
  rcases h1 with h1 | ⟨h1e, h1p⟩ <;> rcases h2 with h2 | ⟨h2e, h2p⟩
  · exact Or.inl (lexCmp_lt_trans h1 h2)
  · rw [lexCmp_eq_iff.mp h2e] at h1
    exact Or.inl h1
  · rw [lexCmp_eq_iff.mp h1e]
    exact Or.inl h2
  · rw [lexCmp_eq_iff.mp h1e]
    exact Or.inr ⟨h2e, pairCmp_lt_trans h1p h2p⟩

theorem PVersion.cmp_eq_congr_left {a b c : PVersion} (h : a.cmp b = .eq) :
    a.cmp c = b.cmp c := by
  unfold PVersion.cmp at *
  rw [Ordering.then_eq_eq] at h
  rw [lexCmp_eq_iff.mp h.1, pairCmp_eq_iff.mp h.2]

theorem PVersion.cmp_swap (a b : PVersion) : a.cmp b = (b.cmp a).swap := by
  unfold PVersion.cmp
  rw [lexCmp_swap, pairCmp_swap]
  rcases lexCmp (stripZeros b.release) (stripZeros a.release) with _ | _ | _ <;>
    rcases pairCmp (rcKey b.rc) (rcKey a.rc) with _ | _ | _ <;> rfl

theorem PVersion.le_refl (a : PVersion) : a.le a = true := by
  unfold PVersion.le PVersion.cmp
  rw [lexCmp_eq_iff.mpr rfl, pairCmp_eq_iff.mpr rfl]
  simp [Ordering.then]

theorem PVersion.le_total (a b : PVersion) : a.le b = true ∨ b.le a = true := by
  unfold PVersion.le
  rw [PVersion.cmp_swap a b]
  rcases b.cmp a with _ | _ | _ <;> simp [Ordering.swap]

theorem PVersion.cmp_eq_congr_right {a b c : PVersion} (h : b.cmp c = .eq) :
    a.cmp c = a.cmp b := by
  have hcb : c.cmp b = .eq := by
    rw [PVersion.cmp_swap, h]; rfl
  have := PVersion.cmp_eq_congr_left (c := a) hcb
  rw [PVersion.cmp_swap a c, this, ← PVersion.cmp_swap a b]

theorem PVersion.le_trans {a b c : PVersion} (h1 : a.le b = true) (h2 : b.le c = true) :
    a.le c = true := by
  unfold PVersion.le at *
  simp only [ne_eq, decide_eq_true_eq] at *
  rcases e1 : a.cmp b with _ | _ | _ <;> rcases e2 : b.cmp c with _ | _ | _
  · rw [PVersion.cmp_eq_lt_trans e1 e2]; intro h; cases h
  · rw [PVersion.cmp_eq_congr_right e2, e1]; intro h; cases h
  · exact absurd e2 h2
  · rw [PVersion.cmp_eq_congr_left e1, e2]; intro h; cases h
  · rw [PVersion.cmp_eq_congr_left e1, e2]; intro h; cases h
  · exact absurd e2 h2
  · exact absurd e1 h1
  · exact absurd e1 h1
  · exact absurd e1 h1

/-! ## Model of the version grammar (`packaging.version.VERSION_PATTERN` / `Version`)

The source compiles `VERSION_PATTERN` with `re.VERBOSE | re.IGNORECASE` and
uses `.search` (pypi, on the filename), `.match` (conda, on the version
field) and the `Version` constructor (full parse, raising `InvalidVersion`
on failure).  The model restricts the grammar to
`v? release ('rc' num)?` with the usual separator characters, and mirrors
`re`'s greedy leftmost matching: `takeVersion` consumes the longest version
at the start of the input and returns the unconsumed remainder. -/

def isDigitCh (c : Char) : Bool :=
  '0' ≤ c && c ≤ '9'

def digitVal (c : Char) : Nat :=
  c.toNat - '0'.toNat

/-- Greedily consume a run of decimal digits. -/
def takeDigits : List Char → List Char × List Char
  | [] => ([], [])
  | c :: cs =>
    if isDigitCh c then
      let p := takeDigits cs
      (c :: p.1, p.2)
    else ([], c :: cs)

def natOfDigits (ds : List Char) : Nat :=
  ds.foldl (fun acc c => 10 * acc + digitVal c) 0

/-- Consume further `.N` release components (fuel-indexed; the fuel is the
input length, which always suffices since each step consumes characters). -/
def takeRelAux : Nat → List Char → List Nat × List Char
  | 0, cs => ([], cs)
  | fuel + 1, cs =>
    match cs with
    | '.' :: cs' =>
      let p := takeDigits cs'
      if p.1.isEmpty then ([], cs)
      else
        let q := takeRelAux fuel p.2
        (natOfDigits p.1 :: q.1, q.2)
    | _ => ([], cs)

/-- Consume a pre-release segment `[-_.]? rc [-_.]? N?` (greedy, like the
regex). -/
def takeRCCore : List Char → Option (Nat × List Char)
  | 'r' :: 'c' :: u =>
    match u with
    | c :: u' =>
      if c = '.' || c = '-' || c = '_' then
        let p := takeDigits u'
        some (natOfDigits p.1, p.2)
      else
        let p := takeDigits (c :: u')
        some (natOfDigits p.1, p.2)
    | [] => some (0, [])
  | _ => none

def takeRC : List Char → Option (Nat × List Char)
  | [] => none
  | c :: rest =>
    if c = '.' || c = '-' || c = '_' then takeRCCore rest
    else takeRCCore (c :: rest)

/-- The version body: `release ('rc' N)?`. -/
def takeVersionBody (t : List Char) : Option (PVersion × List Char) :=
  let p := takeDigits t
  if p.1.isEmpty then none
  else
    let rel := takeRelAux t.length p.2
    let first := natOfDigits p.1
    match takeRC rel.2 with
    | some (n, rest) => some (⟨first :: rel.1, some n⟩, rest)
    | none => some (⟨first :: rel.1, none⟩, rel.2)

/-- Greedy match of the version grammar at the start of the input (the `v`
marker is optional, as in `VERSION_PATTERN`). -/
def takeVersion (s : List Char) : Option (PVersion × List Char) :=
  match s with
  | 'v' :: rest => takeVersionBody rest
  | 'V' :: rest => takeVersionBody rest
  | _ => takeVersionBody s

/-- The substring matched by the grammar at the start of the input, i.e.
`m.group(0)` of `pattern.match(s)`. -/
def verKeyAt (s : List Char) : Option (List Char) :=
  (takeVersion s).map (fun p => s.take (s.length - p.2.length))

/-- Model of `version_pattern.match(s).group(0)` (conda grouping). -/
def matchVersionStart (s : String) : Option String :=
  (verKeyAt s.data).map String.mk

/-- Leftmost match, like `re`'s `search`: try each start position in order. -/
def searchVersionL : List Char → Option (List Char)
  | [] => none
  | c :: cs =>
    match verKeyAt (c :: cs) with
    | some k => some k
    | none => searchVersionL cs

/-- Model of `VERSION_PATTERN.search(s).group(0)` (pypi grouping). -/
def searchVersion (s : String) : Option String :=
  (searchVersionL s.data).map String.mk

/-- Model of the `Version` constructor: the whole string must parse
(`none` models a raised `InvalidVersion`). -/
def parseVersion (s : String) : Option PVersion :=
  match takeVersion s.data with
  | some (v, []) => some v
  | _ => none

/-- The sort key `key=Version` applied to a group key.  Group keys are regex
matches of the version grammar, so the parse always succeeds on them; the
default value is never reached. -/
def parseVersionD (s : String) : PVersion :=
  (parseVersion s).getD ⟨[], none⟩

/-! ## Model of `packaging.utils` filename parsing and the data model -/

/-- `pat` is an initial segment of the second argument. -/
def isStartOf : List Char → List Char → Bool
  | [], _ => true
  | _ :: _, [] => false
  | a :: as, b :: bs => a == b && isStartOf as bs

/-- Remove the ending `tail` from `s`, if `s` ends with it. -/
def dropEnding (tail s : List Char) : Option (List Char) :=
  if isStartOf tail.reverse s.reverse then some ((s.reverse.drop tail.length).reverse)
  else none

/-- Split on every `-`, like `str.split("-")`. -/
def splitOnDash : List Char → List (List Char)
  | [] => [[]]
  | c :: cs =>
    if c = '-' then [] :: splitOnDash cs
    else
      match splitOnDash cs with
      | [] => [[c]]
      | g :: gs => (c :: g) :: gs

/-- Split at the last `-`, like `str.rpartition("-")`. -/
def breakLastDash (s : List Char) : Option (List Char × List Char) :=
  let r := s.reverse
  let sp := r.span (fun c => c != '-')
  match sp.2 with
  | '-' :: beforeRev => some (beforeRev.reverse, sp.1.reverse)
  | _ => none

/-- Model of `packaging.utils.parse_sdist_filename`: a `.tar.gz` or `.zip`
name split at the last dash into package name and (fully parseable) version;
`none` models a raised `InvalidSdistFilename`. -/
def parse_sdist_filename (filename : String) : Option (String × PVersion) :=
  let s := filename.data
  let base :=
    match dropEnding ".tar.gz".data s with
    | some b => some b
    | none => dropEnding ".zip".data s
  match base with
  | none => none
  | some b =>
    match breakLastDash b with
    | none => none
    | some (namePart, verPart) =>
      if namePart.isEmpty then none
      else
        match parseVersion (String.mk verPart) with
        | some v => some (String.mk namePart, v)
        | none => none

/-- Model of `packaging.utils.parse_wheel_filename`: a `.whl` name with 5 or
6 dash-separated fields; the compatibility tag triple is modelled as the
single combined string `py-abi-plat` (compressed tag sets are not expanded);
`none` models a raised `InvalidWheelFilename`. -/
def parse_wheel_filename (filename : String) :
    Option (String × PVersion × List String) :=
  let s := filename.data
  match dropEnding ".whl".data s with
  | none => none
  | some b =>
    match (splitOnDash b).map String.mk with
    | [n, vs, py, abi, plat] =>
      if n.isEmpty then none
      else
        match parseVersion vs with
        | some v => some (n, v, [py ++ "-" ++ abi ++ "-" ++ plat])
        | none => none
    | [n, vs, _build, py, abi, plat] =>
      if n.isEmpty then none
      else
        match parseVersion vs with
        | some v => some (n, v, [py ++ "-" ++ abi ++ "-" ++ plat])
        | none => none
    | _ => none

/-- One entry of the PyPI simple-index `files` array, with the fields
`get_pypi` reads.  The `upload-time` ISO timestamp is modelled as an integer
on the same axis as the cutoff `when`. -/
structure PyFileObj where
  filename : String
  yanked : Bool
  uploadTime : Int
deriving DecidableEq, Repr

/-- `asof.package_match.PackageMatch`. -/
structure PackageMatch where
  package_name : String
  version : PVersion
  datetime : Int
  source : String
deriving DecidableEq, Repr

/-- Modelled from the spec: the `MatchesOption` result type is imported by
`src/asof/conda.py` from `asof.package_match` but its class definition is
missing from the sources; per the spec it is an ordered list of matches plus
an optional human-readable message used when the list is empty (the source
field name `matches` is a reserved word in Lean, hence `matchList`). -/
structure MatchesOption where
  matchList : List PackageMatch
  message : Option String
deriving DecidableEq, Repr

/-- `asof.pypi_baseurl` (from `src/asof/__init__.py`). -/
def pypi_baseurl : String := "https://pypi.org"

/-- Model of `asof.pypi.is_compatible` (src/asof/pypi.py:82-105): try the
sdist parse (always compatible), then the wheel parse (compatible iff some
system tag is among the wheel's tags, mirroring
`for t in sys_tags(): if t in tags: return version`), else `None`.  The
ambient `sys_tags()` is passed explicitly as `sysTags`. -/
def is_compatible (sysTags : List String) (file_obj : PyFileObj) : Option PVersion :=
  match parse_sdist_filename file_obj.filename with
  | some (_, version) => some version
  | none =>
    match parse_wheel_filename file_obj.filename with
    | some (_, version, tags) =>
      if sysTags.any (fun t => tags.contains t) then some version else none
    | none => none

/-! ## Grouping and sorting (shared shape of both resolvers) -/

/-- Insert one record into the string-keyed group map.  Models
`defaultdict(list)` indexing plus `append`: first-seen key order and
per-key source order are preserved. -/
def addToGroup {α : Type} (k : String) (f : α) :
    List (String × List α) → List (String × List α)
  | [] => [(k, [f])]
  | (k', fs) :: rest =>
    if k' = k then (k', fs ++ [f]) :: rest
    else (k', fs) :: addToGroup k f rest

/-- The grouping pass (src/asof/pypi.py:37-43, src/asof/conda.py:71-77):
records whose version string yields no regex match are only warned about and
skipped. -/
def groupRecords {α : Type} (key : α → Option String) (records : List α) :
    List (String × List α) :=
  records.foldl (fun g f =>
    match key f with
    | some k => addToGroup k f g
    | none => g) []

/-- `grouped[k]` -/
def lookupGroup {α : Type} (g : List (String × List α)) (k : String) : List α :=
  ((g.find? (fun p => p.1 == k)).map Prod.snd).getD []

/-- The comparison `sorted(grouped.keys(), key=Version)` sorts by.  Group
keys are regex matches of the version grammar, so `parseVersion` succeeds on
every key this is actually applied to. -/
def verKeyLe (a b : String) : Bool :=
  (parseVersionD a).le (parseVersionD b)

def insertSortedKey (x : String) : List String → List String
  | [] => [x]
  | y :: ys => if verKeyLe x y then x :: y :: ys else y :: insertSortedKey x ys

def sortKeysAsc : List String → List String
  | [] => []
  | x :: xs => insertSortedKey x (sortKeysAsc xs)

/-- The sort pass (src/asof/pypi.py:49-50, src/asof/conda.py:83-84): sort
ascending by `Version`, then reverse to descending. -/
def sortKeysDesc (ks : List String) : List String :=
  (sortKeysAsc ks).reverse

/-! ## The PyPI resolver (`src/asof/pypi.py`) -/

/-- Inner loop of the walk (src/asof/pypi.py:56-77), over one version
group's records in source order.  The `Bool` is whether the early
`return matches` fired (a non-pre-release was accepted). -/
def pyWalkFiles (sysTags : List String) (when : Int) (package : String) :
    List PyFileObj → List PackageMatch → List PackageMatch × Bool
  | [], matchesAcc => (matchesAcc, false)
  | file_obj :: rest, matchesAcc =>
    if file_obj.yanked then pyWalkFiles sysTags when package rest matchesAcc
    else if when < file_obj.uploadTime then pyWalkFiles sysTags when package rest matchesAcc
    else
      match is_compatible sysTags file_obj with
      | none => pyWalkFiles sysTags when package rest matchesAcc
      | some version_obj =>
        if version_obj.isPrerelease && !matchesAcc.isEmpty then
          pyWalkFiles sysTags when package rest matchesAcc
        else if version_obj.isPrerelease then
          pyWalkFiles sysTags when package rest
            (matchesAcc ++ [⟨package, version_obj, file_obj.uploadTime, pypi_baseurl⟩])
        else (matchesAcc ++ [⟨package, version_obj, file_obj.uploadTime, pypi_baseurl⟩], true)

/-- Outer loop of the walk (src/asof/pypi.py:55-79), over the version
groups in descending-version order. -/
def pyWalkGroups (sysTags : List String) (when : Int) (package : String) :
    List (String × List PyFileObj) → List PackageMatch → List PackageMatch
  | [], matchesAcc => matchesAcc
  | (_, files) :: rest, matchesAcc =>
    match pyWalkFiles sysTags when package files matchesAcc with
    | (ms, true) => ms
    | (ms, false) => pyWalkGroups sysTags when package rest ms

/-- The resolver core of `get_pypi` (src/asof/pypi.py:33-79), from the
decoded `files` array on: group by the regex-searched version string, sort
the distinct keys ascending by `Version` and reverse, then walk. -/
def get_pypi_core (sysTags : List String) (when : Int) (package : String)
    (file_objs : List PyFileObj) : List PackageMatch :=
  let grouped := groupRecords (fun f => searchVersion f.filename) file_objs
  let version_strs := sortKeysDesc (grouped.map Prod.fst)
  pyWalkGroups sysTags when package
    (version_strs.map (fun k => (k, lookupGroup grouped k))) []

inductive FetchError where
  | httpStatus (code : Nat)
deriving DecidableEq, Repr

/-- `get_pypi` (src/asof/pypi.py:23-79) including the fetch outcome: a 404
status returns a bare `[]`; `resp.raise_for_status()` raises for any other
4xx/5xx status (`Except.error`); otherwise the decoded `files` records are
resolved by the core.  Note the return type: a plain list of matches, with
no message slot. -/
def get_pypi (sysTags : List String) (when : Int) (package : String)
    (status : Nat) (file_objs : List PyFileObj) :
    Except FetchError (List PackageMatch) :=
  if status = 404 then .ok []
  else if 400 ≤ status ∧ status ≤ 599 then .error (.httpStatus status)
  else .ok (get_pypi_core sysTags when package file_objs)

/-! ## The conda resolver (`src/asof/conda.py`) -/

/-- One record of the conda/mamba `search --json` output, with the fields
`get_conda` reads: the `version` field, the optional integer-millisecond
`timestamp` (ancient entries lack it), and the `channel` label. -/
structure CondaFileObj where
  version : String
  timestamp : Option Int
  channel : String
deriving DecidableEq, Repr

/-- Effective publish time of a conda record (src/asof/conda.py:93-97):
`file_obj.get("timestamp", 0) / 1000` fed to `datetime.fromtimestamp` —
a monotone conversion, modelled on an integer seconds axis. -/
def condaDt (file_obj : CondaFileObj) : Int :=
  file_obj.timestamp.getD 0 / 1000

/-- Inner loop of conda's `get_matches` (src/asof/conda.py:92-112) over one
group's records.  The unguarded `Version(file_obj["version"])` call is
fallible: a failed parse models the raised `InvalidVersion`
(`Except.error`).  There is no yanked and no compatibility check in this
variant. -/
def condaWalkFiles (when : Int) (package : String) :
    List CondaFileObj → List PackageMatch →
    Except Unit (List PackageMatch × Bool)
  | [], matchesAcc => .ok (matchesAcc, false)
  | file_obj :: rest, matchesAcc =>
    if when < condaDt file_obj then condaWalkFiles when package rest matchesAcc
    else
      match parseVersion file_obj.version with
      | none => .error ()
      | some version_obj =>
        if version_obj.isPrerelease && !matchesAcc.isEmpty then
          condaWalkFiles when package rest matchesAcc
        else if version_obj.isPrerelease then
          condaWalkFiles when package rest
            (matchesAcc ++ [⟨package, version_obj, condaDt file_obj, file_obj.channel⟩])
        else .ok (matchesAcc ++ [⟨package, version_obj, condaDt file_obj, file_obj.channel⟩], true)

/-- `get_matches` (src/asof/conda.py:89-112).  The Python function body has
no final `return` statement, so exhausting all groups returns the implicit
`None` (`Option.none` here), discarding any accumulated pre-release
matches. -/
def get_matches (when : Int) (package : String) :
    List (String × List CondaFileObj) → List PackageMatch →
    Except Unit (Option (List PackageMatch))
  | [], _matchesAcc => .ok none
  | (_, files) :: rest, matchesAcc =>
    match condaWalkFiles when package files matchesAcc with
    | .error e => .error e
    | .ok (ms, true) => .ok (some ms)
    | .ok (ms, false) => get_matches when package rest ms

/-- The `no_matches_msg` string of src/asof/conda.py:50. -/
def no_matches_msg (package : String) : String :=
  "No matches for " ++ package ++ " available from requested conda channels"

/-- Result of `subprocess.run([conda_command, "search", ...])`, with the
fields `get_conda` reads. -/
structure SubprocessResult where
  returncode : Int
  stderr : String
deriving DecidableEq, Repr

/-- Substring test, modelling Python's `pat in s`. -/
def containsSub (pat s : String) : Bool :=
  s.data.tails.any (fun t => isStartOf pat.data t)

/-- `get_conda` (src/asof/conda.py:29-117), from the subprocess result on
(command construction and JSON unwrapping are I/O glue outside the core;
`file_objs` is the decoded record list).  A non-zero exit whose stderr
mentions `PackagesNotFoundError` yields the empty result with the
no-matches message; any other non-zero exit yields the empty result with a
message naming the exit status.  Otherwise the records are grouped by
`version_pattern.match`, sorted, walked by `get_matches`, and the walrus
`if matches := get_matches():` treats both `None` and `[]` as falsy.  An
`Except.error` models an uncaught exception escaping the call. -/
def get_conda (conda_command : String) (when : Int) (package : String)
    (res : SubprocessResult) (file_objs : List CondaFileObj) :
    Except Unit MatchesOption :=
  if res.returncode ≠ 0 then
    if containsSub "PackagesNotFoundError" res.stderr then
      .ok ⟨[], some (no_matches_msg package)⟩
    else
      .ok ⟨[], some (conda_command ++ " exited with status " ++ toString res.returncode)⟩
  else
    let grouped := groupRecords (fun f => matchVersionStart f.version) file_objs
    let version_strs := sortKeysDesc (grouped.map Prod.fst)
    match get_matches when package
        (version_strs.map (fun k => (k, lookupGroup grouped k))) [] with
    | .error e => .error e
    | .ok (some ms) =>
      if ms.isEmpty then .ok ⟨[], some (no_matches_msg package)⟩
      else .ok ⟨ms, none⟩
    | .ok none => .ok ⟨[], some (no_matches_msg package)⟩

/-! ## Grouping lemmas -/

theorem lookupGroup_nil {α : Type} (k : String) : lookupGroup ([] : List (String × List α)) k = [] :=
  rfl

theorem lookupGroup_cons {α : Type} (k0 k : String) (fs0 : List α)
    (rest : List (String × List α)) :
    lookupGroup ((k0, fs0) :: rest) k = if k0 = k then fs0 else lookupGroup rest k := by
  by_cases h : k0 = k
  · simp [lookupGroup, List.find?, h]
  · have hb : (k0 == k) = false := by
      simp [h]
    simp [lookupGroup, List.find?, hb, h]

theorem lookupGroup_addToGroup {α : Type} (k' k : String) (f : α)
    (g : List (String × List α)) :
    lookupGroup (addToGroup k' f g) k =
      if k' = k then lookupGroup g k ++ [f] else lookupGroup g k := by
  induction g with
  | nil =>
    by_cases h : k' = k <;> simp [addToGroup, lookupGroup_cons, h, lookupGroup_nil]
  | cons p rest ih =>
    obtain ⟨k0, fs0⟩ := p
    by_cases h0 : k0 = k'
    · subst h0
      simp only [addToGroup, if_pos rfl]
      by_cases h : k0 = k
      · simp [lookupGroup_cons, h, if_pos]
      · simp [lookupGroup_cons, h]
    · simp only [addToGroup, if_neg h0]
      by_cases h : k0 = k
      · subst h
        have : ¬(k' = k0) := fun hh => h0 hh.symm
        simp [lookupGroup_cons, this, if_pos]
      · simp [lookupGroup_cons, h, ih]

theorem lookupGroup_foldl {α : Type} (key : α → Option String) (records : List α)
    (g : List (String × List α)) (k : String) :
    lookupGroup (records.foldl (fun g f =>
      match key f with
      | some k' => addToGroup k' f g
      | none => g) g) k =
      lookupGroup g k ++ records.filter (fun f => key f == some k) := by
  induction records generalizing g with
  | nil => simp
  | cons f fs ih =>
    simp only [List.foldl_cons]
    rcases hk : key f with _ | k'
    · simp only [hk]
      rw [ih]
      have : (key f == some k) = false := by
        simp [hk]
      simp [List.filter_cons, this]
    · simp only [hk]
      rw [ih, lookupGroup_addToGroup]
      by_cases h : k' = k
      · subst h
        have : (key f == some k') = true := by
          simp [hk]
        simp [List.filter_cons, this]
      · have : (key f == some k) = false := by
          simp [hk, h]
        simp [List.filter_cons, this, h]

theorem lookupGroup_groupRecords {α : Type} (key : α → Option String)
    (records : List α) (k : String) :
    lookupGroup (groupRecords key records) k =
      records.filter (fun f => key f == some k) := by
  unfold groupRecords
  rw [lookupGroup_foldl]
  rfl

/-- Completeness of the grouping pass: a record whose version string matched
lands in a group whose key is among the grouped keys. -/
theorem mem_keys_of_lookupGroup_ne_nil {α : Type} (g : List (String × List α))
    (k : String) (h : lookupGroup g k ≠ []) : k ∈ g.map Prod.fst := by
  induction g with
  | nil => exact absurd rfl h
  | cons p rest ih =>
    obtain ⟨k0, fs0⟩ := p
    rw [lookupGroup_cons] at h
    by_cases h0 : k0 = k
    · simp [h0]
    · rw [if_neg h0] at h
      simp only [List.map_cons, List.mem_cons]
      exact Or.inr (ih h)

/-! ## Sort lemmas -/

theorem verKeyLe_total (a b : String) : verKeyLe a b = true ∨ verKeyLe b a = true :=
  PVersion.le_total _ _

theorem verKeyLe_trans {a b c : String} (h1 : verKeyLe a b = true)
    (h2 : verKeyLe b c = true) : verKeyLe a c = true :=
  PVersion.le_trans h1 h2

theorem mem_insertSortedKey {x y : String} {l : List String} :
    y ∈ insertSortedKey x l ↔ y = x ∨ y ∈ l := by
  induction l with
  | nil => simp [insertSortedKey]
  | cons z zs ih =>
    simp only [insertSortedKey]
    by_cases h : verKeyLe x z = true
    · simp [h, List.mem_cons]
    · simp only [if_neg h, List.mem_cons, ih]
      tauto

theorem mem_sortKeysAsc {y : String} {l : List String} :
    y ∈ sortKeysAsc l ↔ y ∈ l := by
  induction l with
  | nil => simp [sortKeysAsc]
  | cons x xs ih =>
    simp only [sortKeysAsc, mem_insertSortedKey, List.mem_cons, ih]

theorem mem_sortKeysDesc {y : String} {l : List String} :
    y ∈ sortKeysDesc l ↔ y ∈ l := by
  unfold sortKeysDesc
  rw [List.mem_reverse]
  exact mem_sortKeysAsc

theorem pairwise_insertSortedKey {x : String} {l : List String}
    (h : l.Pairwise (fun a b => verKeyLe a b = true)) :
    (insertSortedKey x l).Pairwise (fun a b => verKeyLe a b = true) := by
  induction l with
  | nil => simp [insertSortedKey]
  | cons z zs ih =>
    rcases List.pairwise_cons.mp h with ⟨hz, hzs⟩
    simp only [insertSortedKey]
    by_cases hle : verKeyLe x z = true
    · rw [if_pos hle]
      refine List.pairwise_cons.mpr ⟨?_, h⟩
      intro b hb
      rcases List.mem_cons.mp hb with hb | hb
      · rw [hb]; exact hle
      · exact verKeyLe_trans hle (hz b hb)
    · rw [if_neg hle]
      refine List.pairwise_cons.mpr ⟨?_, ih hzs⟩
      intro b hb
      rcases mem_insertSortedKey.mp hb with hb | hb
      · rw [hb]
        rcases verKeyLe_total z x with ht | ht
        · exact ht
        · exact absurd ht hle
      · exact hz b hb

theorem pairwise_sortKeysAsc (l : List String) :
    (sortKeysAsc l).Pairwise (fun a b => verKeyLe a b = true) := by
  induction l with
  | nil => simp [sortKeysAsc]
  | cons x xs ih => exact pairwise_insertSortedKey ih

theorem pairwise_sortKeysDesc (l : List String) :
    (sortKeysDesc l).Pairwise (fun a b => verKeyLe b a = true) := by
  unfold sortKeysDesc
  rw [List.pairwise_reverse]
  exact pairwise_sortKeysAsc l

/-! ## Walk lemmas: provenance (PyPI) -/

/-- A match was built from a non-yanked, in-time, compatible record of
`fs`. -/
def PyProv (sysTags : List String) (when : Int) (package : String)
    (fs : List PyFileObj) (m : PackageMatch) : Prop :=
  ∃ f, f ∈ fs ∧ f.yanked = false ∧ f.uploadTime ≤ when ∧
    is_compatible sysTags f = some m.version ∧
    m.package_name = package ∧ m.datetime = f.uploadTime ∧ m.source = pypi_baseurl

theorem PyProv_mono {sysTags : List String} {when : Int} {package : String}
    {fs fs' : List PyFileObj} {m : PackageMatch}
    (hsub : ∀ f ∈ fs, f ∈ fs') (h : PyProv sysTags when package fs m) :
    PyProv sysTags when package fs' m := by
  obtain ⟨f, hf, rest⟩ := h
  exact ⟨f, hsub f hf, rest⟩

theorem pyWalkFiles_mem {sysTags : List String} {when : Int} {package : String} :
    ∀ (fs : List PyFileObj) (acc ms : List PackageMatch) (b : Bool),
    pyWalkFiles sysTags when package fs acc = (ms, b) →
    ∀ m ∈ ms, m ∈ acc ∨ PyProv sysTags when package fs m := by
  intro fs
  induction fs with
  | nil =>
    intro acc ms b h m hm
    injection h with h1 _
    subst h1
    exact Or.inl hm
  | cons f rest ih =>
    intro acc ms b h m hm
    have tailCase : pyWalkFiles sysTags when package rest acc = (ms, b) →
        m ∈ acc ∨ PyProv sysTags when package (f :: rest) m := by
      intro h'
      rcases ih acc ms b h' m hm with hh | hh
      · exact Or.inl hh
      · exact Or.inr (PyProv_mono (fun x hx => List.mem_cons_of_mem f hx) hh)
    rw [pyWalkFiles] at h
    by_cases hy : f.yanked
    · rw [if_pos hy] at h
      exact tailCase h
    · rw [if_neg hy] at h
      by_cases ht : when < f.uploadTime
      · rw [if_pos ht] at h
        exact tailCase h
      · rw [if_neg ht] at h
        rcases hc : is_compatible sysTags f with _ | version_obj
        · rw [hc] at h
          exact tailCase h
        · rw [hc] at h
          simp only at h
          by_cases hp : (version_obj.isPrerelease && !acc.isEmpty) = true
          · rw [if_pos hp] at h
            exact tailCase h
          · rw [if_neg hp] at h
            have hprov : PyProv sysTags when package (f :: rest)
                ⟨package, version_obj, f.uploadTime, pypi_baseurl⟩ := by
              refine ⟨f, List.mem_cons_self f rest, ?_, ?_, ?_, rfl, rfl, rfl⟩
              · exact Bool.not_eq_true _ ▸ (by simpa using hy)
              · omega
              · exact hc
            by_cases hpre : version_obj.isPrerelease = true
            · rw [if_pos hpre] at h
              rcases ih _ ms b h m hm with hh | hh
              · rcases List.mem_append.mp hh with hh' | hh'
                · exact Or.inl hh'
                · have : m = ⟨package, version_obj, f.uploadTime, pypi_baseurl⟩ := by
                    simpa using hh'
                  rw [this]
                  exact Or.inr hprov
              · exact Or.inr (PyProv_mono (fun x hx => List.mem_cons_of_mem f hx) hh)
            · rw [if_neg hpre] at h
              injection h with h1 _
              subst h1
              rcases List.mem_append.mp hm with hh' | hh'
              · exact Or.inl hh'
              · have : m = ⟨package, version_obj, f.uploadTime, pypi_baseurl⟩ := by
                  simpa using hh'
                rw [this]
                exact Or.inr hprov

theorem pyWalkGroups_mem {sysTags : List String} {when : Int} {package : String} :
    ∀ (L : List (String × List PyFileObj)) (acc : List PackageMatch),
    ∀ m ∈ pyWalkGroups sysTags when package L acc,
    m ∈ acc ∨ ∃ p ∈ L, PyProv sysTags when package p.2 m := by
  intro L
  induction L with
  | nil =>
    intro acc m hm
    exact Or.inl hm
  | cons p rest ih =>
    intro acc m hm
    obtain ⟨k, files⟩ := p
    rw [pyWalkGroups] at hm
    rcases hw : pyWalkFiles sysTags when package files acc with ⟨ms, b⟩
    rw [hw] at hm
    cases b with
    | true =>
      simp only at hm
      rcases pyWalkFiles_mem files acc ms true hw m hm with hh | hh
      · exact Or.inl hh
      · exact Or.inr ⟨(k, files), List.mem_cons_self _ _, hh⟩
    | false =>
      simp only at hm
      rcases ih ms m hm with hh | hh
      · rcases pyWalkFiles_mem files acc ms false hw m hh with hh' | hh'
        · exact Or.inl hh'
        · exact Or.inr ⟨(k, files), List.mem_cons_self _ _, hh'⟩
      · obtain ⟨q, hq, hprov⟩ := hh
        exact Or.inr ⟨q, List.mem_cons_of_mem _ hq, hprov⟩

/-- Every match of the PyPI resolver core comes from a non-yanked, in-time,
compatible input record. -/
theorem get_pypi_core_prov {sysTags : List String} {when : Int} {package : String}
    {file_objs : List PyFileObj} :
    ∀ m ∈ get_pypi_core sysTags when package file_objs,
    PyProv sysTags when package file_objs m := by
  intro m hm
  unfold get_pypi_core at hm
  rcases pyWalkGroups_mem _ _ m hm with hh | hh
  · cases hh
  · obtain ⟨p, hp, hprov⟩ := hh
    rcases List.mem_map.mp hp with ⟨k, _, hk2⟩
    subst hk2
    refine PyProv_mono ?_ hprov
    intro f hf
    simp only at hf
    rw [lookupGroup_groupRecords] at hf
    exact (List.mem_filter.mp hf).1

/-! ## Walk lemmas: timestamps and result shapes -/

/-- Invariant of the walk's accumulator: empty, or a single pre-release
match (a second pre-release is skipped because `matches` is non-empty, and
a non-pre-release returns immediately). -/
def ShapeAcc (ms : List PackageMatch) : Prop :=
  ms = [] ∨ ∃ a, ms = [a] ∧ a.version.isPrerelease = true

/-- Shape of a finished walk result: the accumulator shape, possibly
capped by one final non-pre-release match. -/
def FinalShape (ms : List PackageMatch) : Prop :=
  ShapeAcc ms ∨ ∃ init mlast, ms = init ++ [mlast] ∧
    mlast.version.isPrerelease = false ∧ ShapeAcc init

theorem pyWalkFiles_shape {sysTags : List String} {when : Int} {package : String} :
    ∀ (fs : List PyFileObj) (acc ms : List PackageMatch) (b : Bool),
    ShapeAcc acc → pyWalkFiles sysTags when package fs acc = (ms, b) →
    (b = false → ShapeAcc ms) ∧
    (b = true → ∃ init mlast, ms = init ++ [mlast] ∧
      mlast.version.isPrerelease = false ∧ ShapeAcc init) := by
  intro fs
  induction fs with
  | nil =>
    intro acc ms b hacc h
    injection h with h1 h2
    subst h1
    subst h2
    constructor
    · intro _; exact hacc
    · intro hb; cases hb
  | cons f rest ih =>
    intro acc ms b hacc h
    rw [pyWalkFiles] at h
    by_cases hy : f.yanked
    · rw [if_pos hy] at h
      exact ih acc ms b hacc h
    · rw [if_neg hy] at h
      by_cases ht : when < f.uploadTime
      · rw [if_pos ht] at h
        exact ih acc ms b hacc h
      · rw [if_neg ht] at h
        rcases hc : is_compatible sysTags f with _ | version_obj
        · rw [hc] at h
          exact ih acc ms b hacc h
        · rw [hc] at h
          simp only at h
          by_cases hp : (version_obj.isPrerelease && !acc.isEmpty) = true
          · rw [if_pos hp] at h
            exact ih acc ms b hacc h
          · rw [if_neg hp] at h
            by_cases hpre : version_obj.isPrerelease = true
            · rw [if_pos hpre] at h
              have haccne : acc = [] := by
                rcases hacc with h0 | ⟨a, h0, _⟩
                · exact h0
                · exfalso
                  apply hp
                  rw [hpre, h0]
                  rfl
              subst haccne
              refine ih _ ms b ?_ h
              exact Or.inr ⟨_, rfl, hpre⟩
            · rw [if_neg hpre] at h
              injection h with h1 h2
              subst h1
              constructor
              · intro hb; rw [← h2] at hb; cases hb
              · intro _
                exact ⟨acc, _, rfl, Bool.not_eq_true _ ▸ (by simpa using hpre), hacc⟩

theorem pyWalkGroups_shape {sysTags : List String} {when : Int} {package : String} :
    ∀ (L : List (String × List PyFileObj)) (acc : List PackageMatch),
    ShapeAcc acc → FinalShape (pyWalkGroups sysTags when package L acc) := by
  intro L
  induction L with
  | nil =>
    intro acc hacc
    exact Or.inl hacc
  | cons p rest ih =>
    intro acc hacc
    obtain ⟨k, files⟩ := p
    rw [pyWalkGroups]
    rcases hw : pyWalkFiles sysTags when package files acc with ⟨ms, b⟩
    have hs := pyWalkFiles_shape files acc ms b hacc hw
    cases b with
    | true =>
      simp only
      exact Or.inr (hs.2 rfl)
    | false =>
      simp only
      exact ih ms (hs.1 rfl)

/-- The PyPI resolver core's result shape: empty, one pre-release, one
stable, or one pre-release followed by one stable. -/
theorem get_pypi_core_shape (sysTags : List String) (when : Int) (package : String)
    (file_objs : List PyFileObj) :
    FinalShape (get_pypi_core sysTags when package file_objs) := by
  unfold get_pypi_core
  exact pyWalkGroups_shape _ _ (Or.inl rfl)

theorem condaWalkFiles_mem_dt {when : Int} {package : String} :
    ∀ (fs : List CondaFileObj) (acc ms : List PackageMatch) (b : Bool),
    condaWalkFiles when package fs acc = .ok (ms, b) →
    ∀ m ∈ ms, m ∈ acc ∨ m.datetime ≤ when := by
  intro fs
  induction fs with
  | nil =>
    intro acc ms b h m hm
    injection h with h1
    injection h1 with h2 _
    subst h2
    exact Or.inl hm
  | cons f rest ih =>
    intro acc ms b h m hm
    rw [condaWalkFiles] at h
    by_cases ht : when < condaDt f
    · rw [if_pos ht] at h
      exact ih acc ms b h m hm
    · rw [if_neg ht] at h
      rcases hc : parseVersion f.version with _ | version_obj
      · rw [hc] at h
        cases h
      · rw [hc] at h
        simp only at h
        by_cases hp : (version_obj.isPrerelease && !acc.isEmpty) = true
        · rw [if_pos hp] at h
          exact ih acc ms b h m hm
        · rw [if_neg hp] at h
          by_cases hpre : version_obj.isPrerelease = true
          · rw [if_pos hpre] at h
            rcases ih _ ms b h m hm with hh | hh
            · rcases List.mem_append.mp hh with hh' | hh'
              · exact Or.inl hh'
              · have : m = ⟨package, version_obj, condaDt f, f.channel⟩ := by
                  simpa using hh'
                rw [this]
                right
                simp only
                omega
            · exact Or.inr hh
          · rw [if_neg hpre] at h
            injection h with h1
            injection h1 with h2 _
            subst h2
            rcases List.mem_append.mp hm with hh' | hh'
            · exact Or.inl hh'
            · have : m = ⟨package, version_obj, condaDt f, f.channel⟩ := by
                simpa using hh'
              rw [this]
              right
              simp only
              omega

theorem condaWalkFiles_shape {when : Int} {package : String} :
    ∀ (fs : List CondaFileObj) (acc ms : List PackageMatch) (b : Bool),
    ShapeAcc acc → condaWalkFiles when package fs acc = .ok (ms, b) →
    (b = false → ShapeAcc ms) ∧
    (b = true → ∃ init mlast, ms = init ++ [mlast] ∧
      mlast.version.isPrerelease = false ∧ ShapeAcc init) := by
  intro fs
  induction fs with
  | nil =>
    intro acc ms b hacc h
    injection h with h1
    injection h1 with h2 h3
    subst h2
    subst h3
    constructor
    · intro _; exact hacc
    · intro hb; cases hb
  | cons f rest ih =>
    intro acc ms b hacc h
    rw [condaWalkFiles] at h
    by_cases ht : when < condaDt f
    · rw [if_pos ht] at h
      exact ih acc ms b hacc h
    · rw [if_neg ht] at h
      rcases hc : parseVersion f.version with _ | version_obj
      · rw [hc] at h
        cases h
      · rw [hc] at h
        simp only at h
        by_cases hp : (version_obj.isPrerelease && !acc.isEmpty) = true
        · rw [if_pos hp] at h
          exact ih acc ms b hacc h
        · rw [if_neg hp] at h
          by_cases hpre : version_obj.isPrerelease = true
          · rw [if_pos hpre] at h
            have haccne : acc = [] := by
              rcases hacc with h0 | ⟨a, h0, _⟩
              · exact h0
              · exfalso
                apply hp
                rw [hpre, h0]
                rfl
            subst haccne
            refine ih _ ms b ?_ h
            exact Or.inr ⟨_, rfl, hpre⟩
          · rw [if_neg hpre] at h
            injection h with h1
            injection h1 with h2 h3
            subst h2
            constructor
            · intro hb; rw [← h3] at hb; cases hb
            · intro _
              exact ⟨acc, _, rfl, Bool.not_eq_true _ ▸ (by simpa using hpre), hacc⟩

theorem get_matches_mem_dt {when : Int} {package : String} :
    ∀ (L : List (String × List CondaFileObj)) (acc ms : List PackageMatch),
    get_matches when package L acc = .ok (some ms) →
    ∀ m ∈ ms, m ∈ acc ∨ m.datetime ≤ when := by
  intro L
  induction L with
  | nil =>
    intro acc ms h
    cases h
  | cons p rest ih =>
    intro acc ms h m hm
    obtain ⟨k, files⟩ := p
    rw [get_matches] at h
    rcases hw : condaWalkFiles when package files acc with e | ⟨ms', b⟩
    · rw [hw] at h
      cases h
    · rw [hw] at h
      cases b with
      | true =>
        simp only at h
        injection h with h1
        injection h1 with h2
        subst h2
        exact condaWalkFiles_mem_dt files acc ms' true hw m hm
      | false =>
        simp only at h
        rcases ih ms' ms h m hm with hh | hh
        · exact condaWalkFiles_mem_dt files acc ms' false hw m hh
        · exact Or.inr hh

theorem get_matches_shape {when : Int} {package : String} :
    ∀ (L : List (String × List CondaFileObj)) (acc ms : List PackageMatch),
    ShapeAcc acc → get_matches when package L acc = .ok (some ms) →
    ∃ init mlast, ms = init ++ [mlast] ∧
      mlast.version.isPrerelease = false ∧ ShapeAcc init := by
  intro L
  induction L with
  | nil =>
    intro acc ms _ h
    cases h
  | cons p rest ih =>
    intro acc ms hacc h
    obtain ⟨k, files⟩ := p
    rw [get_matches] at h
    rcases hw : condaWalkFiles when package files acc with e | ⟨ms', b⟩
    · rw [hw] at h
      cases h
    · rw [hw] at h
      have hs := condaWalkFiles_shape files acc ms' b hacc hw
      cases b with
      | true =>
        simp only at h
        injection h with h1
        injection h1 with h2
        subst h2
        exact hs.2 rfl
      | false =>
        simp only at h
        exact ih ms' ms (hs.1 rfl) h

/-! ## Walk lemmas: maximality of the accepted stable version (PyPI) -/

/-- A record that passes the walk's yanked, cutoff and compatibility checks
with extracted version `v`. -/
def QualV (sysTags : List String) (when : Int) (f : PyFileObj) (v : PVersion) : Prop :=
  f.yanked = false ∧ f.uploadTime ≤ when ∧ is_compatible sysTags f = some v

/-- Every record's regex-extracted group key parses to the same `Version`
the compatibility filter extracts from its filename.  The walk's
"highest version first" reasoning implicitly assumes this; the property can
fail for real filenames (digits inside the package name). -/
def ConsistentFiles (sysTags : List String) (file_objs : List PyFileObj) : Prop :=
  ∀ f ∈ file_objs, ∀ k, searchVersion f.filename = some k →
    ∀ v, is_compatible sysTags f = some v → parseVersionD k = v

theorem pyWalkFiles_finds_stable {sysTags : List String} {when : Int} {package : String} :
    ∀ (fs : List PyFileObj) (acc : List PackageMatch),
    (∃ f ∈ fs, ∃ v, QualV sysTags when f v ∧ v.isPrerelease = false) →
    (pyWalkFiles sysTags when package fs acc).2 = true := by
  intro fs
  induction fs with
  | nil =>
    intro acc hex
    obtain ⟨f, hf, _⟩ := hex
    cases hf
  | cons f0 rest ih =>
    intro acc hex
    have tailEx : (∃ f ∈ rest, ∃ v, QualV sysTags when f v ∧ v.isPrerelease = false) →
        (pyWalkFiles sysTags when package rest acc).2 = true := ih acc
    rw [pyWalkFiles]
    by_cases hy : f0.yanked
    · rw [if_pos hy]
      apply ih
      obtain ⟨f, hf, v, hq, hst⟩ := hex
      rcases List.mem_cons.mp hf with hf' | hf'
      · rw [hf'] at hq
        exact absurd hy (by simp [hq.1])
      · exact ⟨f, hf', v, hq, hst⟩
    · rw [if_neg hy]
      by_cases ht : when < f0.uploadTime
      · rw [if_pos ht]
        apply ih
        obtain ⟨f, hf, v, hq, hst⟩ := hex
        rcases List.mem_cons.mp hf with hf' | hf'
        · rw [hf'] at hq
          have hle := hq.2.1
          omega
        · exact ⟨f, hf', v, hq, hst⟩
      · rw [if_neg ht]
        rcases hc : is_compatible sysTags f0 with _ | version_obj
        · simp only
          apply ih
          obtain ⟨f, hf, v, hq, hst⟩ := hex
          rcases List.mem_cons.mp hf with hf' | hf'
          · rw [hf'] at hq
            rw [hq.2.2] at hc
            cases hc
          · exact ⟨f, hf', v, hq, hst⟩
        · simp only
          have hstable_head : (∃ v, QualV sysTags when f0 v ∧ v.isPrerelease = false) →
              version_obj.isPrerelease = false := by
            rintro ⟨v, hq, hst⟩
            rw [hq.2.2] at hc
            injection hc with hc'
            rw [← hc']
            exact hst
          by_cases hp : (version_obj.isPrerelease && !acc.isEmpty) = true
          · rw [if_pos hp]
            apply ih
            obtain ⟨f, hf, v, hq, hst⟩ := hex
            rcases List.mem_cons.mp hf with hf' | hf'
            · rw [hf'] at hq
              have := hstable_head ⟨v, hq, hst⟩
              rw [this] at hp
              cases hp
            · exact ⟨f, hf', v, hq, hst⟩
          · rw [if_neg hp]
            by_cases hpre : version_obj.isPrerelease = true
            · rw [if_pos hpre]
              apply ih
              obtain ⟨f, hf, v, hq, hst⟩ := hex
              rcases List.mem_cons.mp hf with hf' | hf'
              · rw [hf'] at hq
                have := hstable_head ⟨v, hq, hst⟩
                rw [this] at hpre
                cases hpre
              · exact ⟨f, hf', v, hq, hst⟩
            · rw [if_neg hpre]

theorem pyWalkGroups_maximal {sysTags : List String} {when : Int} {package : String}
    {file_objs : List PyFileObj} :
    ∀ (L : List (String × List PyFileObj)) (acc : List PackageMatch),
    ShapeAcc acc →
    L.Pairwise (fun p q => verKeyLe q.1 p.1 = true) →
    (∀ p ∈ L, ∀ f ∈ p.2, f ∈ file_objs ∧ searchVersion f.filename = some p.1) →
    ConsistentFiles sysTags file_objs →
    (∃ p ∈ L, ∃ f ∈ p.2, ∃ v, QualV sysTags when f v ∧ v.isPrerelease = false) →
    ∃ m, (pyWalkGroups sysTags when package L acc).getLast? = some m ∧
      m.version.isPrerelease = false ∧
      ∀ p ∈ L, ∀ f ∈ p.2, ∀ v, QualV sysTags when f v → v.isPrerelease = false →
        v.le m.version = true := by
  intro L
  induction L with
  | nil =>
    intro acc _ _ _ _ hex
    obtain ⟨p, hp, _⟩ := hex
    cases hp
  | cons p0 rest ih =>
    intro acc hacc hpair hsound hcons hex
    obtain ⟨k0, G0⟩ := p0
    rw [pyWalkGroups]
    rcases hw : pyWalkFiles sysTags when package G0 acc with ⟨ms, b⟩
    cases b with
    | true =>
      simp only
      have hs := (pyWalkFiles_shape G0 acc ms true hacc hw).2 rfl
      obtain ⟨init, mlast, hms, hstable, hinit⟩ := hs
      refine ⟨mlast, ?_, hstable, ?_⟩
      · rw [hms]
        exact List.getLast?_concat _
      · -- provenance of `mlast` inside this group
        have hmem : mlast ∈ ms := by
          rw [hms]
          exact List.mem_append_right _ (List.mem_singleton.mpr rfl)
        have hprov : PyProv sysTags when package G0 mlast := by
          rcases pyWalkFiles_mem G0 acc ms true hw mlast hmem with hh | hh
          · exfalso
            rcases hacc with h0 | ⟨a, h0, hapre⟩
            · rw [h0] at hh
              cases hh
            · rw [h0] at hh
              have : mlast = a := by simpa using hh
              rw [this, hapre] at hstable
              cases hstable
          · exact hh
        obtain ⟨fm, hfm, _, _, hcompat, _, _, _⟩ := hprov
        have hfm' := hsound (k0, G0) (List.mem_cons_self _ _) fm hfm
        have hkey0 : parseVersionD k0 = mlast.version :=
          hcons fm hfm'.1 k0 hfm'.2 mlast.version hcompat
        intro p hpL f hf v hq hst
        rcases List.mem_cons.mp hpL with hp' | hp'
        · -- same group: consistency forces `v` to be this key's version
          subst hp'
          have hf' := hsound (k0, G0) (List.mem_cons_self _ _) f hf
          have : parseVersionD k0 = v := hcons f hf'.1 k0 hf'.2 v hq.2.2
          rw [← this, hkey0]
          exact PVersion.le_refl _
        · -- a later (lower-keyed) group
          have hrel := (List.pairwise_cons.mp hpair).1 p hp'
          have hf' := hsound p (List.mem_cons_of_mem _ hp') f hf
          have hkeyp : parseVersionD p.1 = v := hcons f hf'.1 p.1 hf'.2 v hq.2.2
          have : verKeyLe p.1 k0 = true := hrel
          unfold verKeyLe at this
          rw [hkeyp, hkey0] at this
          exact this
    | false =>
      simp only
      have hnone : ¬∃ f ∈ G0, ∃ v, QualV sysTags when f v ∧ v.isPrerelease = false := by
        intro hcontra
        have hb := @pyWalkFiles_finds_stable sysTags when package G0 acc hcontra
        rw [hw] at hb
        cases hb
      have hex' : ∃ p ∈ rest, ∃ f ∈ p.2, ∃ v, QualV sysTags when f v ∧
          v.isPrerelease = false := by
        obtain ⟨p, hpL, f, hf, v, hq, hst⟩ := hex
        rcases List.mem_cons.mp hpL with hp' | hp'
        · exfalso
          apply hnone
          rw [hp'] at hf
          exact ⟨f, hf, v, hq, hst⟩
        · exact ⟨p, hp', f, hf, v, hq, hst⟩
      have hshape := (pyWalkFiles_shape G0 acc ms false hacc hw).1 rfl
      obtain ⟨m, hlast, hst, hmax⟩ := ih ms hshape (List.pairwise_cons.mp hpair).2
        (fun p hp => hsound p (List.mem_cons_of_mem _ hp)) hcons hex'
      refine ⟨m, hlast, hst, ?_⟩
      intro p hpL f hf v hq hstv
      rcases List.mem_cons.mp hpL with hp' | hp'
      · exfalso
        apply hnone
        rw [hp'] at hf
        exact ⟨f, hf, v, hq, hstv⟩
      · exact hmax p hp' f hf v hq hstv

/-- Assembly: if the group keys are consistent with the compatibility
filter's versions, the PyPI core's last (best) match is stable and
version-maximal among all qualifying stable records. -/
theorem get_pypi_core_maximal {sysTags : List String} {when : Int} {package : String}
    {file_objs : List PyFileObj}
    (hcons : ConsistentFiles sysTags file_objs)
    (hex : ∃ f ∈ file_objs, ∃ k, searchVersion f.filename = some k ∧
      ∃ v, QualV sysTags when f v ∧ v.isPrerelease = false) :
    ∃ m, (get_pypi_core sysTags when package file_objs).getLast? = some m ∧
      m.version.isPrerelease = false ∧
      ∀ f ∈ file_objs, ∀ k, searchVersion f.filename = some k →
        ∀ v, QualV sysTags when f v → v.isPrerelease = false →
          v.le m.version = true := by
  simp only [get_pypi_core]
  set g := groupRecords (fun f => searchVersion f.filename) file_objs with hg
  set L := (sortKeysDesc (g.map Prod.fst)).map (fun k => (k, lookupGroup g k)) with hL
  have hmemL : ∀ f ∈ file_objs, ∀ k, searchVersion f.filename = some k →
      f ∈ lookupGroup g k ∧ (k, lookupGroup g k) ∈ L := by
    intro f hf k hk
    have hfl : f ∈ lookupGroup g k := by
      rw [hg, lookupGroup_groupRecords]
      refine List.mem_filter.mpr ⟨hf, ?_⟩
      simp [hk]
    refine ⟨hfl, ?_⟩
    rw [hL]
    apply List.mem_map_of_mem
    apply mem_sortKeysDesc.mpr
    exact mem_keys_of_lookupGroup_ne_nil g k (List.ne_nil_of_mem hfl)
  have hsound : ∀ p ∈ L, ∀ f ∈ p.2, f ∈ file_objs ∧ searchVersion f.filename = some p.1 := by
    intro p hp f hf
    rw [hL] at hp
    rcases List.mem_map.mp hp with ⟨k, _, hp2⟩
    subst hp2
    simp only at hf
    rw [hg, lookupGroup_groupRecords] at hf
    have := List.mem_filter.mp hf
    refine ⟨this.1, ?_⟩
    have hb := this.2
    simp only [beq_iff_eq] at hb
    exact hb
  have hpairL : L.Pairwise (fun p q => verKeyLe q.1 p.1 = true) := by
    rw [hL]
    exact List.pairwise_map.mpr (pairwise_sortKeysDesc (g.map Prod.fst))
  have hex' : ∃ p ∈ L, ∃ f ∈ p.2, ∃ v, QualV sysTags when f v ∧ v.isPrerelease = false := by
    obtain ⟨f, hf, k, hk, v, hq, hst⟩ := hex
    have hm := hmemL f hf k hk
    exact ⟨(k, lookupGroup g k), hm.2, f, hm.1, v, hq, hst⟩
  obtain ⟨m, hlast, hstable, hmax⟩ :=
    pyWalkGroups_maximal L [] (Or.inl rfl) hpairL hsound hcons hex'
  refine ⟨m, hlast, hstable, ?_⟩
  intro f hf k hk v hq hst
  have hm := hmemL f hf k hk
  exact hmax (k, lookupGroup g k) hm.2 f hm.1 v hq hst

/-- A record whose filename yields group key `k` lands in group `k`, and
that group is among the walked (key, group) pairs. -/
theorem mem_walked_groups {file_objs : List PyFileObj} {f : PyFileObj} {k : String}
    (hf : f ∈ file_objs) (hk : searchVersion f.filename = some k) :
    f ∈ lookupGroup (groupRecords (fun f => searchVersion f.filename) file_objs) k ∧
    (k, lookupGroup (groupRecords (fun f => searchVersion f.filename) file_objs) k) ∈
      (sortKeysDesc ((groupRecords (fun f => searchVersion f.filename)
        file_objs).map Prod.fst)).map
        (fun k => (k, lookupGroup (groupRecords
          (fun f => searchVersion f.filename) file_objs) k)) := by
  have hfl : f ∈ lookupGroup (groupRecords (fun f => searchVersion f.filename) file_objs) k := by
    rw [lookupGroup_groupRecords]
    refine List.mem_filter.mpr ⟨hf, ?_⟩
    simp [hk]
  refine ⟨hfl, ?_⟩
  apply List.mem_map_of_mem
  apply mem_sortKeysDesc.mpr
  exact mem_keys_of_lookupGroup_ne_nil _ k (List.ne_nil_of_mem hfl)

/-- Unconditional form: whatever the group keys look like, if some group
holds a qualifying stable record the walk ends by accepting a stable
match, so the last element of the result is never a pre-release. -/
theorem pyWalkGroups_finds_stable {sysTags : List String} {when : Int} {package : String} :
    ∀ (L : List (String × List PyFileObj)) (acc : List PackageMatch),
    ShapeAcc acc →
    (∃ p ∈ L, ∃ f ∈ p.2, ∃ v, QualV sysTags when f v ∧ v.isPrerelease = false) →
    ∃ m, (pyWalkGroups sysTags when package L acc).getLast? = some m ∧
      m.version.isPrerelease = false := by
  intro L
  induction L with
  | nil =>
    intro acc _ hex
    obtain ⟨p, hp, _⟩ := hex
    cases hp
  | cons p0 rest ih =>
    intro acc hacc hex
    obtain ⟨k0, G0⟩ := p0
    rw [pyWalkGroups]
    rcases hw : pyWalkFiles sysTags when package G0 acc with ⟨ms, b⟩
    cases b with
    | true =>
      simp only
      obtain ⟨init, mlast, hms, hstable, _⟩ :=
        (pyWalkFiles_shape G0 acc ms true hacc hw).2 rfl
      refine ⟨mlast, ?_, hstable⟩
      rw [hms]
      exact List.getLast?_concat _
    | false =>
      simp only
      have hnone : ¬∃ f ∈ G0, ∃ v, QualV sysTags when f v ∧ v.isPrerelease = false := by
        intro hcontra
        have hb := @pyWalkFiles_finds_stable sysTags when package G0 acc hcontra
        rw [hw] at hb
        cases hb
      have hex' : ∃ p ∈ rest, ∃ f ∈ p.2, ∃ v, QualV sysTags when f v ∧
          v.isPrerelease = false := by
        obtain ⟨p, hpL, f, hf, v, hq, hst⟩ := hex
        rcases List.mem_cons.mp hpL with hp' | hp'
        · exfalso
          apply hnone
          rw [hp'] at hf
          exact ⟨f, hf, v, hq, hst⟩
        · exact ⟨p, hp', f, hf, v, hq, hst⟩
      exact ih ms ((pyWalkFiles_shape G0 acc ms false hacc hw).1 rfl) hex'

/-- Assembly of the unconditional part: no key-consistency hypothesis. -/
theorem get_pypi_core_finds_stable {sysTags : List String} {when : Int} {package : String}
    {file_objs : List PyFileObj}
    (hex : ∃ f ∈ file_objs, ∃ k, searchVersion f.filename = some k ∧
      ∃ v, QualV sysTags when f v ∧ v.isPrerelease = false) :
    ∃ m, (get_pypi_core sysTags when package file_objs).getLast? = some m ∧
      m.version.isPrerelease = false := by
  simp only [get_pypi_core]
  apply pyWalkGroups_finds_stable _ [] (Or.inl rfl)
  obtain ⟨f, hf, k, hk, v, hq, hst⟩ := hex
  have hm := mem_walked_groups hf hk
  exact ⟨(k, lookupGroup (groupRecords (fun f => searchVersion f.filename) file_objs) k),
    hm.2, f, hm.1, v, hq, hst⟩

/-! ## Bridging lemmas for the claim theorems -/

theorem FinalShape_cases {ms : List PackageMatch} (h : FinalShape ms) :
    ms = [] ∨ (∃ a, ms = [a]) ∨
    (∃ a b, ms = [a, b] ∧ a.version.isPrerelease = true ∧
      b.version.isPrerelease = false) := by
  rcases h with h | ⟨init, mlast, hms, hstable, hinit⟩
  · rcases h with h | ⟨a, h, _⟩
    · exact Or.inl h
    · exact Or.inr (Or.inl ⟨a, h⟩)
  · rcases hinit with h0 | ⟨a, h0, hapre⟩
    · subst h0
      exact Or.inr (Or.inl ⟨mlast, hms⟩)
    · subst h0
      exact Or.inr (Or.inr ⟨a, mlast, hms, hapre, hstable⟩)

/-- Executable form of `ConsistentFiles`, so witnesses can be checked by
evaluation. -/
def consistentB (sysTags : List String) (file_objs : List PyFileObj) : Bool :=
  file_objs.all (fun f =>
    match searchVersion f.filename, is_compatible sysTags f with
    | some k, some v => parseVersionD k == v
    | _, _ => true)

theorem consistentB_spec {sysTags : List String} {file_objs : List PyFileObj}
    (h : consistentB sysTags file_objs = true) : ConsistentFiles sysTags file_objs := by
  intro f hf k hk v hv
  have := List.all_eq_true.mp h f hf
  rw [hk, hv] at this
  simpa using this

theorem isStartOf_head {c : Char} {pat text : List Char}
    (h : isStartOf (c :: pat) text = true) : ∃ ts, text = c :: ts := by
  cases text with
  | nil => cases h
  | cons b bs =>
    simp only [isStartOf, Bool.and_eq_true, beq_iff_eq] at h
    exact ⟨bs, by rw [h.1]⟩

/-- A parseable wheel filename (ending `.whl`) is never a parseable sdist
filename (ending `.tar.gz` or `.zip`). -/
theorem sdist_wheel_disjoint {s : String} {x : String × PVersion × List String}
    (hw : parse_wheel_filename s = some x) : parse_sdist_filename s = none := by
  simp only [parse_wheel_filename] at hw
  rcases hdw : dropEnding ".whl".data s.data with _ | b
  · rw [hdw] at hw
    cases hw
  · unfold dropEnding at hdw
    by_cases hiw : isStartOf ".whl".data.reverse s.data.reverse = true
    · have hrev : ∃ ts, s.data.reverse = 'l' :: ts := by
        have : ".whl".data.reverse = ['l', 'h', 'w', '.'] := by decide
        rw [this] at hiw
        exact isStartOf_head hiw
      obtain ⟨ts, hts⟩ := hrev
      simp only [parse_sdist_filename]
      have h1 : dropEnding ".tar.gz".data s.data = none := by
        unfold dropEnding
        have : ".tar.gz".data.reverse = ['z', 'g', '.', 'r', 'a', 't', '.'] := by decide
        rw [this, hts]
        simp [isStartOf]
      have h2 : dropEnding ".zip".data s.data = none := by
        unfold dropEnding
        have : ".zip".data.reverse = ['p', 'i', 'z', '.'] := by decide
        rw [this, hts]
        simp [isStartOf]
      rw [h1, h2]
    · rw [if_neg hiw] at hdw
      cases hdw

/-- Case analysis of a successful `get_conda`: either the empty result with
a message (not-found, subprocess failure, `get_matches` falsy), or a
non-empty match list produced by `get_matches` with no message. -/
theorem get_conda_ok_cases {conda_command : String} {when : Int} {package : String}
    {res : SubprocessResult} {file_objs : List CondaFileObj} {mo : MatchesOption}
    (h : get_conda conda_command when package res file_objs = .ok mo) :
    (mo.matchList = [] ∧ mo.message.isSome = true) ∨
    (mo.message = none ∧ mo.matchList ≠ [] ∧
      get_matches when package
        ((sortKeysDesc ((groupRecords (fun f => matchVersionStart f.version)
            file_objs).map Prod.fst)).map
          (fun k => (k, lookupGroup (groupRecords
            (fun f => matchVersionStart f.version) file_objs) k))) []
        = .ok (some mo.matchList)) := by
  simp only [get_conda] at h
  by_cases hrc : res.returncode ≠ 0
  · rw [if_pos hrc] at h
    by_cases hns : containsSub "PackagesNotFoundError" res.stderr = true
    · rw [if_pos hns] at h
      injection h with h1
      subst h1
      exact Or.inl ⟨rfl, rfl⟩
    · rw [if_neg hns] at h
      injection h with h1
      subst h1
      exact Or.inl ⟨rfl, rfl⟩
  · rw [if_neg hrc] at h
    rcases hgm : get_matches when package
        ((sortKeysDesc ((groupRecords (fun f => matchVersionStart f.version)
            file_objs).map Prod.fst)).map
          (fun k => (k, lookupGroup (groupRecords
            (fun f => matchVersionStart f.version) file_objs) k))) [] with e | r
    · rw [hgm] at h
      cases h
    · rw [hgm] at h
      rcases r with _ | ms
      · simp only at h
        injection h with h1
        subst h1
        exact Or.inl ⟨rfl, rfl⟩
      · simp only at h
        by_cases hemp : ms.isEmpty = true
        · rw [if_pos hemp] at h
          injection h with h1
          subst h1
          exact Or.inl ⟨rfl, rfl⟩
        · rw [if_neg hemp] at h
          injection h with h1
          subst h1
          refine Or.inr ⟨rfl, ?_, hgm⟩
          intro hnil
          apply hemp
          have hms : ms = [] := hnil
          rw [hms]
          rfl

/-! ## Claim theorems -/

/-- C1: for every cutoff time and record list, every match returned by the
resolver (`get_pypi` or `get_conda`) has publish timestamp at most the
cutoff: the walk skips a record iff its timestamp is strictly after the
cutoff (`dt > when`), so a record whose timestamp equals the cutoff stays
eligible. -/
theorem C1_cutoff_respected :
    (∀ (sysTags : List String) (when : Int) (package : String) (status : Nat)
      (file_objs : List PyFileObj) (ms : List PackageMatch),
      get_pypi sysTags when package status file_objs = Except.ok ms →
      ∀ m ∈ ms, m.datetime ≤ when) ∧
    (∀ (conda_command : String) (when : Int) (package : String)
      (res : SubprocessResult) (file_objs : List CondaFileObj) (mo : MatchesOption),
      get_conda conda_command when package res file_objs = Except.ok mo →
      ∀ m ∈ mo.matchList, m.datetime ≤ when) := by
  constructor
  · intro sysTags when package status file_objs ms h m hm
    unfold get_pypi at h
    by_cases h404 : status = 404
    · rw [if_pos h404] at h
      injection h with h1
      subst h1
      cases hm
    · rw [if_neg h404] at h
      by_cases herr : 400 ≤ status ∧ status ≤ 599
      · rw [if_pos herr] at h
        cases h
      · rw [if_neg herr] at h
        injection h with h1
        subst h1
        obtain ⟨f, _, _, hft, _, _, hdt, _⟩ := get_pypi_core_prov m hm
        omega
  · intro conda_command when package res file_objs mo h m hm
    rcases get_conda_ok_cases h with ⟨hnil, _⟩ | ⟨_, _, hgm⟩
    · rw [hnil] at hm
      cases hm
    · rcases get_matches_mem_dt _ _ _ hgm m hm with hh | hh
      · cases hh
      · exact hh

/-- Witness for C1 at inputs whose timestamps equal the cutoff exactly. -/
theorem C1_cutoff_respected_witness :
    get_pypi [] 5 "foo" 200 [⟨"foo-1.0.tar.gz", false, 5⟩] =
      Except.ok [⟨"foo", ⟨[1, 0], none⟩, 5, "https://pypi.org"⟩] ∧
    (⟨"foo", ⟨[1, 0], none⟩, 5, "https://pypi.org"⟩ : PackageMatch).datetime ≤ 5 ∧
    get_conda "conda" 2 "pkg" ⟨0, ""⟩ [⟨"1.0", some 2000, "defaults"⟩] =
      Except.ok ⟨[⟨"pkg", ⟨[1, 0], none⟩, 2, "defaults"⟩], none⟩ ∧
    (⟨"pkg", ⟨[1, 0], none⟩, 2, "defaults"⟩ : PackageMatch).datetime ≤ 2 :=
  ⟨rfl,
   C1_cutoff_respected.1 [] 5 "foo" 200 [⟨"foo-1.0.tar.gz", false, 5⟩]
     [⟨"foo", ⟨[1, 0], none⟩, 5, "https://pypi.org"⟩] rfl
     ⟨"foo", ⟨[1, 0], none⟩, 5, "https://pypi.org"⟩ (List.mem_singleton.mpr rfl),
   rfl,
   C1_cutoff_respected.2 "conda" 2 "pkg" ⟨0, ""⟩ [⟨"1.0", some 2000, "defaults"⟩]
     ⟨[⟨"pkg", ⟨[1, 0], none⟩, 2, "defaults"⟩], none⟩ rfl
     ⟨"pkg", ⟨[1, 0], none⟩, 2, "defaults"⟩ (List.mem_singleton.mpr rfl)⟩

/-- C4: no match ever refers to a yanked record: every PyPI match is
produced by some input record whose yanked flag is false (the conda records
carry no yanked flag at all). -/
theorem C4_yanked_excluded :
    ∀ (sysTags : List String) (when : Int) (package : String) (status : Nat)
      (file_objs : List PyFileObj) (ms : List PackageMatch),
      get_pypi sysTags when package status file_objs = Except.ok ms →
      ∀ m ∈ ms, ∃ f ∈ file_objs, f.yanked = false ∧ f.uploadTime ≤ when ∧
        is_compatible sysTags f = some m.version ∧ m.datetime = f.uploadTime := by
  intro sysTags when package status file_objs ms h m hm
  unfold get_pypi at h
  by_cases h404 : status = 404
  · rw [if_pos h404] at h
    injection h with h1
    subst h1
    cases hm
  · rw [if_neg h404] at h
    by_cases herr : 400 ≤ status ∧ status ≤ 599
    · rw [if_pos herr] at h
      cases h
    · rw [if_neg herr] at h
      injection h with h1
      subst h1
      obtain ⟨f, hf, hy, hft, hc, _, hdt, _⟩ := get_pypi_core_prov m hm
      exact ⟨f, hf, hy, hft, hc, hdt⟩

/-- Witness for C4: a yanked 2.0 is passed over in favour of 1.9. -/
theorem C4_yanked_excluded_witness :
    get_pypi [] 10 "foo" 200
      [⟨"foo-2.0.tar.gz", true, 0⟩, ⟨"foo-1.9.tar.gz", false, 0⟩] =
      Except.ok [⟨"foo", ⟨[1, 9], none⟩, 0, "https://pypi.org"⟩] ∧
    ∃ f ∈ [(⟨"foo-2.0.tar.gz", true, 0⟩ : PyFileObj), ⟨"foo-1.9.tar.gz", false, 0⟩],
      f.yanked = false ∧ f.uploadTime ≤ 10 ∧
      is_compatible [] f =
        some (⟨"foo", ⟨[1, 9], none⟩, 0, "https://pypi.org"⟩ : PackageMatch).version ∧
      (⟨"foo", ⟨[1, 9], none⟩, 0, "https://pypi.org"⟩ : PackageMatch).datetime =
        f.uploadTime :=
  ⟨rfl,
   C4_yanked_excluded [] 10 "foo" 200
     [⟨"foo-2.0.tar.gz", true, 0⟩, ⟨"foo-1.9.tar.gz", false, 0⟩]
     [⟨"foo", ⟨[1, 9], none⟩, 0, "https://pypi.org"⟩] rfl
     ⟨"foo", ⟨[1, 9], none⟩, 0, "https://pypi.org"⟩ (List.mem_singleton.mpr rfl)⟩

/-- C8: a conda record without a timestamp field gets publish time epoch
zero (never "now", never an error), so it passes the cutoff comparison
for every non-negative cutoff. -/
theorem C8_missing_timestamp_is_epoch :
    ∀ (f : CondaFileObj), f.timestamp = none →
      condaDt f = 0 ∧ ∀ when : Int, 0 ≤ when → ¬(when < condaDt f) := by
  intro f hf
  have h0 : condaDt f = 0 := by
    unfold condaDt
    rw [hf]
    rfl
  refine ⟨h0, ?_⟩
  intro when hw
  rw [h0]
  omega

/-- Witness for C8 at a concrete untimestamped record. -/
theorem C8_missing_timestamp_is_epoch_witness :
    condaDt ⟨"1.0", none, "conda-forge"⟩ = 0 ∧
    ¬((7 : Int) < condaDt ⟨"1.0", none, "conda-forge"⟩) :=
  ⟨(C8_missing_timestamp_is_epoch ⟨"1.0", none, "conda-forge"⟩ rfl).1,
   (C8_missing_timestamp_is_epoch ⟨"1.0", none, "conda-forge"⟩ rfl).2 7 (by omega)⟩

/-- C10: the resolver's match list holds at most one pre-release and at
most one non-pre-release match — hence at most two entries — and when both
are present the pre-release comes first. -/
theorem C10_at_most_two_matches :
    (∀ (sysTags : List String) (when : Int) (package : String)
      (file_objs : List PyFileObj),
      get_pypi_core sysTags when package file_objs = [] ∨
      (∃ a, get_pypi_core sysTags when package file_objs = [a]) ∨
      (∃ a b, get_pypi_core sysTags when package file_objs = [a, b] ∧
        a.version.isPrerelease = true ∧ b.version.isPrerelease = false)) ∧
    (∀ (conda_command : String) (when : Int) (package : String)
      (res : SubprocessResult) (file_objs : List CondaFileObj) (mo : MatchesOption),
      get_conda conda_command when package res file_objs = Except.ok mo →
      mo.matchList = [] ∨ (∃ a, mo.matchList = [a]) ∨
      (∃ a b, mo.matchList = [a, b] ∧ a.version.isPrerelease = true ∧
        b.version.isPrerelease = false)) := by
  constructor
  · intro sysTags when package file_objs
    exact FinalShape_cases (get_pypi_core_shape sysTags when package file_objs)
  · intro conda_command when package res file_objs mo h
    rcases get_conda_ok_cases h with ⟨hnil, _⟩ | ⟨_, _, hgm⟩
    · exact Or.inl hnil
    · exact FinalShape_cases (Or.inr (get_matches_shape _ _ _ (Or.inl rfl) hgm))

/-- Witness for C10's conda half at a concrete input that returns a
pre-release followed by a stable match. -/
theorem C10_at_most_two_matches_witness :
    (⟨[⟨"pkg", ⟨[2, 0], some 1⟩, 0, "conda-forge"⟩,
       ⟨"pkg", ⟨[1, 0], none⟩, 2, "defaults"⟩], none⟩ : MatchesOption).matchList = [] ∨
    (∃ a, (⟨[⟨"pkg", ⟨[2, 0], some 1⟩, 0, "conda-forge"⟩,
       ⟨"pkg", ⟨[1, 0], none⟩, 2, "defaults"⟩], none⟩ : MatchesOption).matchList = [a]) ∨
    (∃ a b, (⟨[⟨"pkg", ⟨[2, 0], some 1⟩, 0, "conda-forge"⟩,
       ⟨"pkg", ⟨[1, 0], none⟩, 2, "defaults"⟩], none⟩ : MatchesOption).matchList = [a, b] ∧
      a.version.isPrerelease = true ∧ b.version.isPrerelease = false) :=
  C10_at_most_two_matches.2 "conda" 10 "pkg" ⟨0, ""⟩
    [⟨"2.0rc1", none, "conda-forge"⟩, ⟨"1.0", some 2000, "defaults"⟩]
    ⟨[⟨"pkg", ⟨[2, 0], some 1⟩, 0, "conda-forge"⟩,
      ⟨"pkg", ⟨[1, 0], none⟩, 2, "defaults"⟩], none⟩ rfl

/-- C9: `is_compatible` returns a source distribution's version
unconditionally, a wheel's version exactly when some system tag is among
the wheel's tags, and `none` (no error) for unrecognized formats. -/
theorem C9_is_compatible_cases :
    (∀ (sysTags : List String) (f : PyFileObj) (n : String) (v : PVersion),
      parse_sdist_filename f.filename = some (n, v) →
      is_compatible sysTags f = some v) ∧
    (∀ (sysTags : List String) (f : PyFileObj) (n : String) (v : PVersion)
      (tags : List String),
      parse_wheel_filename f.filename = some (n, v, tags) →
      (is_compatible sysTags f = some v ↔ ∃ t ∈ sysTags, t ∈ tags)) ∧
    (∀ (sysTags : List String) (f : PyFileObj),
      parse_sdist_filename f.filename = none →
      parse_wheel_filename f.filename = none →
      is_compatible sysTags f = none) := by
  refine ⟨?_, ?_, ?_⟩
  · intro sysTags f n v h
    unfold is_compatible
    rw [h]
  · intro sysTags f n v tags h
    unfold is_compatible
    rw [sdist_wheel_disjoint h, h]
    simp only
    by_cases hany : sysTags.any (fun t => tags.contains t) = true
    · rw [if_pos hany]
      constructor
      · intro _
        rcases List.any_eq_true.mp hany with ⟨t, ht, htag⟩
        exact ⟨t, ht, List.elem_iff.mp htag⟩
      · intro _
        rfl
    · rw [if_neg hany]
      constructor
      · intro hc
        cases hc
      · rintro ⟨t, ht, htag⟩
        exact absurd (List.any_eq_true.mpr ⟨t, ht, List.elem_iff.mpr htag⟩) hany
  · intro sysTags f h1 h2
    unfold is_compatible
    rw [h1, h2]

/-- Witness for C9 at concrete sdist, wheel (matching and non-matching
tag sets) and unrecognized filenames. -/
theorem C9_is_compatible_cases_witness :
    is_compatible ["cp39-abi3-linux"] ⟨"foo-1.0.tar.gz", false, 0⟩ =
      some ⟨[1, 0], none⟩ ∧
    (is_compatible ["py3-none-any"] ⟨"foo-1.0-py3-none-any.whl", false, 0⟩ =
      some ⟨[1, 0], none⟩ ↔ ∃ t ∈ ["py3-none-any"], t ∈ ["py3-none-any"]) ∧
    is_compatible ["py3-none-any"] ⟨"foo.exe", false, 0⟩ = none :=
  ⟨C9_is_compatible_cases.1 ["cp39-abi3-linux"] ⟨"foo-1.0.tar.gz", false, 0⟩
     "foo" ⟨[1, 0], none⟩ rfl,
   C9_is_compatible_cases.2.1 ["py3-none-any"] ⟨"foo-1.0-py3-none-any.whl", false, 0⟩
     "foo" ⟨[1, 0], none⟩ ["py3-none-any"] (by rfl),
   C9_is_compatible_cases.2.2 ["py3-none-any"] ⟨"foo.exe", false, 0⟩ rfl rfl⟩

/-- C2 (failing-input evaluation): a lone qualifying pre-release conda
record yields the empty no-matches result — the accumulated pre-release is
discarded because `get_matches` has no final `return` — while the PyPI
variant on the analogous input does return the pre-release match. -/
theorem C2_conda_drops_prerelease :
    get_conda "conda" 10 "pkg" ⟨0, ""⟩ [⟨"1.0rc1", none, "conda-forge"⟩] =
      Except.ok ⟨[], some "No matches for pkg available from requested conda channels"⟩ ∧
    condaDt ⟨"1.0rc1", none, "conda-forge"⟩ ≤ 10 ∧
    parseVersion "1.0rc1" = some ⟨[1, 0], some 1⟩ ∧
    (⟨[1, 0], some 1⟩ : PVersion).isPrerelease = true ∧
    get_pypi_core [] 10 "pkg" [⟨"pkg-1.0rc1.tar.gz", false, 0⟩] =
      [⟨"pkg", ⟨[1, 0], some 1⟩, 0, "https://pypi.org"⟩] :=
  ⟨rfl, by decide, rfl, rfl, rfl⟩

/-- C5 (failing-input evaluation): a conda record whose version field has a
parseable proper initial segment (`"1.0.0xyz"`) is grouped rather than
excluded, and the unguarded `Version(...)` call then raises — `get_conda`
propagates the exception instead of warning and skipping.  In the PyPI
variant a record with no extractable version is only warned about and
excluded, leaving the remaining records' result unchanged. -/
theorem C5_conda_raises_on_malformed :
    matchVersionStart "1.0.0xyz" = some "1.0.0" ∧
    parseVersion "1.0.0xyz" = none ∧
    get_conda "conda" 10 "pkg" ⟨0, ""⟩ [⟨"1.0.0xyz", none, "conda-forge"⟩] =
      Except.error () ∧
    searchVersion "junk.exe" = none ∧
    get_pypi_core [] 10 "pkg" [⟨"junk.exe", false, 0⟩, ⟨"pkg-1.0.tar.gz", false, 0⟩] =
      get_pypi_core [] 10 "pkg" [⟨"pkg-1.0.tar.gz", false, 0⟩] :=
  ⟨rfl, rfl, rfl, rfl, rfl⟩

/-- C6: the conda variant's result does satisfy message-iff-empty, but the
PyPI variant returns a bare match list with no message slot at all: on an
empty index or a 404 it returns `[]` with no diagnostic attached. -/
theorem C6_message_iff_empty :
    (∀ (conda_command : String) (when : Int) (package : String)
      (res : SubprocessResult) (file_objs : List CondaFileObj) (mo : MatchesOption),
      get_conda conda_command when package res file_objs = Except.ok mo →
      (mo.message.isSome = true ↔ mo.matchList = [])) ∧
    get_pypi [] 0 "pkg" 200 [] = Except.ok [] ∧
    get_pypi [] 0 "pkg" 404 [] = Except.ok [] := by
  refine ⟨?_, rfl, rfl⟩
  intro conda_command when package res file_objs mo h
  rcases get_conda_ok_cases h with ⟨hnil, hsome⟩ | ⟨hnone, hne, _⟩
  · exact ⟨fun _ => hnil, fun _ => hsome⟩
  · constructor
    · intro hs
      rw [hnone] at hs
      cases hs
    · intro hn
      exact absurd hn hne

/-- Witness for C6's conda half on an empty record list. -/
theorem C6_message_iff_empty_witness :
    ((⟨[], some (no_matches_msg "pkg")⟩ : MatchesOption).message.isSome = true ↔
      (⟨[], some (no_matches_msg "pkg")⟩ : MatchesOption).matchList = []) :=
  C6_message_iff_empty.1 "conda" 10 "pkg" ⟨0, ""⟩ []
    ⟨[], some (no_matches_msg "pkg")⟩ rfl

/-- C7 counterexample, both halves of the claim.  Conda: a subprocess
failure (exit status 1, stderr without `PackagesNotFoundError`) is returned
as an ordinary empty `MatchesOption` carrying a message — an `Except.ok`
value of the same type as the legitimate empty result, not a propagated
failure signal.  PyPI: a non-2xx status outside 4xx/5xx (here 304, which
`raise_for_status` does not raise for) is likewise not propagated — the
body is processed and an ordinary empty list returned. -/
theorem C7_counterexample_failures_not_propagated :
    get_conda "conda" 10 "pkg" ⟨1, "CondaError: something broke"⟩ [] =
      Except.ok ⟨[], some "conda exited with status 1"⟩ ∧
    get_pypi [] 0 "pkg" 304 [] = Except.ok [] :=
  ⟨rfl, rfl⟩

/-- C7 amended: PyPI's 404 yields an empty list and any other 4xx/5xx
status raises; conda's not-found yields the no-matches message while any
other non-zero exit yields an empty result whose message names the exit
status, returned normally rather than raised. -/
theorem C7_amended_fetch_failures :
    (∀ (sysTags : List String) (when : Int) (package : String)
      (file_objs : List PyFileObj),
      get_pypi sysTags when package 404 file_objs = Except.ok []) ∧
    (∀ (sysTags : List String) (when : Int) (package : String) (status : Nat)
      (file_objs : List PyFileObj), 400 ≤ status → status ≤ 599 → status ≠ 404 →
      get_pypi sysTags when package status file_objs =
        Except.error (.httpStatus status)) ∧
    (∀ (conda_command : String) (when : Int) (package : String)
      (res : SubprocessResult) (file_objs : List CondaFileObj),
      res.returncode ≠ 0 →
      containsSub "PackagesNotFoundError" res.stderr = true →
      get_conda conda_command when package res file_objs =
        Except.ok ⟨[], some (no_matches_msg package)⟩) ∧
    (∀ (conda_command : String) (when : Int) (package : String)
      (res : SubprocessResult) (file_objs : List CondaFileObj),
      res.returncode ≠ 0 →
      containsSub "PackagesNotFoundError" res.stderr = false →
      get_conda conda_command when package res file_objs =
        Except.ok ⟨[], some (conda_command ++ " exited with status " ++
          toString res.returncode)⟩) := by
  refine ⟨?_, ?_, ?_, ?_⟩
  · intro sysTags when package file_objs
    unfold get_pypi
    rw [if_pos rfl]
  · intro sysTags when package status file_objs h1 h2 h3
    unfold get_pypi
    rw [if_neg h3, if_pos ⟨h1, h2⟩]
  · intro conda_command when package res file_objs h1 h2
    simp only [get_conda]
    rw [if_pos h1, if_pos h2]
  · intro conda_command when package res file_objs h1 h2
    simp only [get_conda]
    rw [if_pos h1, if_neg ?_]
    rw [h2]
    intro hcontra
    cases hcontra

/-- Witness for C7's amended statement at concrete fetch outcomes. -/
theorem C7_amended_fetch_failures_witness :
    get_pypi [] 0 "pkg" 404 [] = Except.ok [] ∧
    get_pypi [] 0 "pkg" 500 [] = Except.error (.httpStatus 500) ∧
    get_conda "conda" 0 "pkg" ⟨1, "PackagesNotFoundError: pkg"⟩ [] =
      Except.ok ⟨[], some (no_matches_msg "pkg")⟩ ∧
    get_conda "mamba" 0 "pkg" ⟨2, "network down"⟩ [] =
      Except.ok ⟨[], some ("mamba" ++ " exited with status " ++ toString (2 : Int))⟩ :=
  ⟨C7_amended_fetch_failures.1 [] 0 "pkg" [],
   C7_amended_fetch_failures.2.1 [] 0 "pkg" 500 [] (by omega) (by omega) (by omega),
   C7_amended_fetch_failures.2.2.1 "conda" 0 "pkg" ⟨1, "PackagesNotFoundError: pkg"⟩ []
     (by decide) (by decide),
   C7_amended_fetch_failures.2.2.2 "mamba" 0 "pkg" ⟨2, "network down"⟩ []
     (by decide) (by decide)⟩

/-- C3 counterexample: both `py7zr` sdists share the regex-extracted group
key `"7"` (the digit of the package name), so they sit in one group in
source order; the walk accepts the stable 2.0 first and stops immediately,
although the stable 3.0 also qualifies (not yanked, in time, compatible)
and has a strictly higher version. -/
theorem C3_counterexample_not_highest_stable :
    get_pypi [] 10 "py7zr" 200
      [⟨"py7zr-2.0.tar.gz", false, 0⟩, ⟨"py7zr-3.0.tar.gz", false, 0⟩] =
      Except.ok [⟨"py7zr", ⟨[2, 0], none⟩, 0, "https://pypi.org"⟩] ∧
    searchVersion "py7zr-2.0.tar.gz" = some "7" ∧
    searchVersion "py7zr-3.0.tar.gz" = some "7" ∧
    (⟨"py7zr-3.0.tar.gz", false, 0⟩ : PyFileObj).yanked = false ∧
    (⟨"py7zr-3.0.tar.gz", false, 0⟩ : PyFileObj).uploadTime ≤ 10 ∧
    is_compatible [] ⟨"py7zr-3.0.tar.gz", false, 0⟩ = some ⟨[3, 0], none⟩ ∧
    (⟨[3, 0], none⟩ : PVersion).isPrerelease = false ∧
    PVersion.lt ⟨[2, 0], none⟩ ⟨[3, 0], none⟩ = true :=
  ⟨rfl, rfl, rfl, rfl, by decide, rfl, rfl, by decide⟩

/-- C3 amended: the walk stops the instant a non-pre-release version is
accepted; whenever a stable record qualifies, the best (last) match is
stable, never a pre-release — unconditionally, whatever the group keys
look like — and, provided every record's extracted group key parses to the
same `Version` the compatibility filter assigns it, that match is the
highest qualifying stable version.  For the conda variant a non-empty
result always ends in the accepted stable match. -/
theorem C3_amended_early_stop_best :
    (∀ (sysTags : List String) (when : Int) (package : String)
      (file_objs : List PyFileObj),
      (∃ f ∈ file_objs, ∃ k, searchVersion f.filename = some k ∧
        ∃ v, QualV sysTags when f v ∧ v.isPrerelease = false) →
      ∃ m, (get_pypi_core sysTags when package file_objs).getLast? = some m ∧
        m.version.isPrerelease = false) ∧
    (∀ (sysTags : List String) (when : Int) (package : String)
      (file_objs : List PyFileObj),
      consistentB sysTags file_objs = true →
      (∃ f ∈ file_objs, ∃ k, searchVersion f.filename = some k ∧
        ∃ v, QualV sysTags when f v ∧ v.isPrerelease = false) →
      ∃ m, (get_pypi_core sysTags when package file_objs).getLast? = some m ∧
        m.version.isPrerelease = false ∧
        ∀ f ∈ file_objs, ∀ k, searchVersion f.filename = some k →
          ∀ v, QualV sysTags when f v → v.isPrerelease = false →
            v.le m.version = true) ∧
    (∀ (conda_command : String) (when : Int) (package : String)
      (res : SubprocessResult) (file_objs : List CondaFileObj) (mo : MatchesOption),
      get_conda conda_command when package res file_objs = Except.ok mo →
      mo.matchList ≠ [] →
      ∃ m, mo.matchList.getLast? = some m ∧ m.version.isPrerelease = false) := by
  refine ⟨?_, ?_, ?_⟩
  · intro sysTags when package file_objs hex
    exact get_pypi_core_finds_stable hex
  · intro sysTags when package file_objs hcons hex
    exact get_pypi_core_maximal (consistentB_spec hcons) hex
  · intro conda_command when package res file_objs mo h hne
    rcases get_conda_ok_cases h with ⟨hnil, _⟩ | ⟨_, _, hgm⟩
    · exact absurd hnil hne
    · obtain ⟨init, mlast, hms, hstable, _⟩ :=
        get_matches_shape _ _ _ (Or.inl rfl) hgm
      refine ⟨mlast, ?_, hstable⟩
      rw [hms]
      exact List.getLast?_concat _

/-- Witness for C3's amended statement.  The unconditional part is applied
at the inconsistent-key `py7zr` input itself (its keys collapse to `"7"`,
yet the best match is still stable); the maximality part at a consistent
input; the conda part at a stable record. -/
theorem C3_amended_early_stop_best_witness :
    (∃ m, (get_pypi_core [] 10 "py7zr"
        [⟨"py7zr-2.0.tar.gz", false, 0⟩, ⟨"py7zr-3.0.tar.gz", false, 0⟩]).getLast? =
        some m ∧ m.version.isPrerelease = false) ∧
    (∃ m, (get_pypi_core [] 10 "foo"
        [⟨"foo-1.0.tar.gz", false, 0⟩, ⟨"foo-2.0.tar.gz", false, 0⟩,
         ⟨"foo-3.0rc1.tar.gz", false, 0⟩]).getLast? = some m ∧
      m.version.isPrerelease = false ∧
      ∀ f ∈ [(⟨"foo-1.0.tar.gz", false, 0⟩ : PyFileObj),
             ⟨"foo-2.0.tar.gz", false, 0⟩, ⟨"foo-3.0rc1.tar.gz", false, 0⟩],
        ∀ k, searchVersion f.filename = some k →
        ∀ v, QualV [] 10 f v → v.isPrerelease = false →
          v.le m.version = true) ∧
    (∃ m, (⟨[⟨"pkg", ⟨[1, 0], none⟩, 2, "defaults"⟩], none⟩ :
        MatchesOption).matchList.getLast? = some m ∧
      m.version.isPrerelease = false) :=
  ⟨C3_amended_early_stop_best.1 [] 10 "py7zr"
     [⟨"py7zr-2.0.tar.gz", false, 0⟩, ⟨"py7zr-3.0.tar.gz", false, 0⟩]
     ⟨⟨"py7zr-3.0.tar.gz", false, 0⟩, by decide, "7", rfl, ⟨[3, 0], none⟩,
      ⟨rfl, by decide, rfl⟩, rfl⟩,
   C3_amended_early_stop_best.2.1 [] 10 "foo"
     [⟨"foo-1.0.tar.gz", false, 0⟩, ⟨"foo-2.0.tar.gz", false, 0⟩,
      ⟨"foo-3.0rc1.tar.gz", false, 0⟩] (by decide)
     ⟨⟨"foo-2.0.tar.gz", false, 0⟩, by decide, "2.0", rfl, ⟨[2, 0], none⟩,
      ⟨rfl, by decide, rfl⟩, rfl⟩,
   C3_amended_early_stop_best.2.2 "conda" 2 "pkg" ⟨0, ""⟩
     [⟨"1.0", some 2000, "defaults"⟩]
     ⟨[⟨"pkg", ⟨[1, 0], none⟩, 2, "defaults"⟩], none⟩ rfl (by decide)⟩
